import Mathlib

/-!
Verification of the A3 secure recommender-update engine
(`src/A3/common.hpp`, `src/A3/dpf.hpp`, `src/A3/p2.cpp`, `src/A3/server.cpp`).

The C++ code is shallowly embedded: `field_t` values live in `Nat` with
explicit reduction mod `2^32` exactly where the source reduces, signed
64-bit intermediates live in `Int` with explicit two's-complement
wrapping, vectors are `List Nat`, and the AES-CTR-based PRG of the DPF
is abstracted by function parameters `G` (for `prg_expand`) and `L`
(for `prg_leaf`) — the specification quantifies over "all PRG outputs",
and none of the verified properties depend on the concrete keystream.
Root seeds drawn from the `std::mt19937_64` rng in `dpf::generate` are
likewise explicit parameters.  Fallible operations return `Except`.

The file is organised as: all definitions (the embedding), then all
lemmas and theorems.
-/

set_option maxHeartbeats 1000000
set_option maxRecDepth 100000

namespace A3

/-! ## Definitions: field arithmetic (`common.hpp`, `namespace Field`) -/

namespace Field

/-- `constexpr field_t MODULUS = 1ULL << 32`. -/
def MODULUS : Nat := 2 ^ 32

/-- `add(a,b) = (a + b) % MODULUS`. -/
def add (a b : Nat) : Nat := (a + b) % MODULUS

/-- `sub(a,b) = (a + MODULUS - b % MODULUS) % MODULUS`. -/
def sub (a b : Nat) : Nat := (a + MODULUS - b % MODULUS) % MODULUS

/-- `mul(a,b) = (a * b) % MODULUS`. -/
def mul (a b : Nat) : Nat := (a * b) % MODULUS

/-- `from_signed(x) = static_cast<uint64_t>(x) & (MODULUS - 1)`: the
`int64 → uint64` cast is reduction mod `2^64`. -/
def from_signed (x : Int) : Nat := (x % (2 ^ 64 : Int)).toNat &&& (MODULUS - 1)

end Field

/-- The ring the protocol computes in. -/
abbrev F := ZMod Field.MODULUS

instance : NeZero Field.MODULUS := ⟨by decide⟩

/-- Plain inner product of two vectors of naturals (the `⟨·,·⟩` of the
specification). -/
def dotN (xs ys : List Nat) : Nat := (List.zipWith (· * ·) xs ys).sum

/-! ## Definitions: secure dot product (`common.hpp`, `secure_dot_product`) -/

/-- One preprocessing bundle as dealt by P2: each party `p` receives
`(X_p, Y_p, c_p)`; the dealer also knows the other views. -/
structure Bundle where
  X0 : List Nat
  Y0 : List Nat
  c0 : Nat
  X1 : List Nat
  Y1 : List Nat
  c1 : Nat

/-- The preprocessing invariant `c0 + c1 ≡ ⟨X0,Y1⟩ + ⟨X1,Y0⟩ (mod 2^32)`. -/
def validBundle (b : Bundle) : Prop :=
  (b.c0 + b.c1) % Field.MODULUS = (dotN b.X0 b.Y1 + dotN b.X1 b.Y0) % Field.MODULUS

/-- Shape of a bundle for a request of dimension `d`. -/
def bundleWF (b : Bundle) (d : Nat) : Prop :=
  b.X0.length = d ∧ b.Y0.length = d ∧ b.X1.length = d ∧ b.Y1.length = d ∧ validBundle b

/-- The local arithmetic of `secure_dot_product` after the peer exchange:
the first loop accumulates `a[i]·(b[i] + peer_mb[i])`, the second loop
subtracts `Y[i]·peer_ma[i]`, then the correction term is added (both
branches of the final `if` add it). -/
def dot_local (a b Y peer_ma peer_mb : List Nat) (c : Nat) : Nat :=
  let r1 := (List.range a.length).foldl
    (fun acc i => Field.add acc (Field.mul (a.getD i 0) (Field.add (b.getD i 0) (peer_mb.getD i 0)))) 0
  let r2 := (List.range a.length).foldl
    (fun acc i => Field.sub acc (Field.mul (Y.getD i 0) (peer_ma.getD i 0))) r1
  Field.add r2 c

/-- The componentwise masking `masked_a[i] = a[i] + X[i]`. -/
def maskedVec (v X : List Nat) : List Nat := List.zipWith Field.add v X

/-- Joint execution of `secure_dot_product` by both parties: each sends its
masked vectors and runs `dot_local` on the peer's.  Returns the two
output shares.  `secure_multiplication` is the same protocol on
singleton vectors. -/
def jointDot (a0 b0 a1 b1 : List Nat) (p : Bundle) : Nat × Nat :=
  let ma0 := maskedVec a0 p.X0
  let mb0 := maskedVec b0 p.Y0
  let ma1 := maskedVec a1 p.X1
  let mb1 := maskedVec b1 p.Y1
  (dot_local a0 b0 p.Y0 ma1 mb1 p.c0, dot_local a1 b1 p.Y1 ma0 mb0 p.c1)

/-! ## Definitions: XOR → additive conversion (`convert_xor_to_additive`) -/

/-- The value of a 64-bit word reinterpreted as a signed `int64_t`. -/
def toInt64 (x : Nat) : Int := if x < 2 ^ 63 then (x : Int) else (x : Int) - 2 ^ 64

/-- Two's-complement wrapping of an integer into `[-2^63, 2^63)`. -/
def wrap64 (x : Int) : Int := (x + 2 ^ 63) % 2 ^ 64 - 2 ^ 63

/-- `sum_vector`: int64 accumulation (each addition wraps). -/
def sum_vector (v : List Int) : Int := v.foldl (fun acc x => wrap64 (acc + x)) 0

/-- The `temp` vector: each entry cast to int64, negated for P1. -/
def convert_temp (xor_values : List Nat) (is_p0 : Bool) : List Int :=
  xor_values.map (fun x => if is_p0 then toInt64 x else wrap64 (-(toInt64 x)))

/-- After the scalar exchange: negate everything when the reconstructed
total is negative, then reduce entries into the field. -/
def convert_out (temp : List Int) (total : Int) : List Nat :=
  (if total < 0 then temp.map (fun v => wrap64 (-v)) else temp).map Field.from_signed

/-- One party's run of `convert_xor_to_additive`, given the scalar sum
received from the peer. -/
def convert_xor_to_additive (xor_values : List Nat) (is_p0 : Bool) (sum_peer : Int) : List Nat :=
  let temp := convert_temp xor_values is_p0
  let total := wrap64 (sum_vector temp + sum_peer)
  convert_out temp total

/-- Joint execution by both parties, wiring each party's local sum to the
other as `sum_peer`. -/
def convertPair (d0 d1 : List Nat) : List Nat × List Nat :=
  (convert_xor_to_additive d0 true (sum_vector (convert_temp d1 false)),
   convert_xor_to_additive d1 false (sum_vector (convert_temp d0 true)))

/-! ## Definitions: the dealer P2 (`p2.cpp`, `generate_bundle` / `handle_client`) -/

/-- A bundle as held internally by P2 (`PreprocessBundle`): the four
mask vectors and the balancing mask `alpha`. -/
structure RawBundle where
  X0 : List Nat
  X1 : List Nat
  Y0 : List Nat
  Y1 : List Nat
  alpha : Nat

/-- The response `handle_client` sends to one party for one bundle:
`(corr, X_party, Y_party)`, with `corr = ⟨X0,Y1⟩ + α` for P0 and
`corr = ⟨X1,Y0⟩ − α` for P1 (accumulated with `Field.add`/`Field.mul`,
then `Field.add`/`Field.sub` for `α`). -/
def p2_response (b : RawBundle) (is_p0 : Bool) : Nat × List Nat × List Nat :=
  if is_p0 then
    (Field.add ((List.range b.X0.length).foldl
        (fun acc i => Field.add acc (Field.mul (b.X0.getD i 0) (b.Y1.getD i 0))) 0) b.alpha,
      b.X0, b.Y0)
  else
    (Field.sub ((List.range b.X1.length).foldl
        (fun acc i => Field.add acc (Field.mul (b.X1.getD i 0) (b.Y0.getD i 0))) 0) b.alpha,
      b.X1, b.Y1)

/-! ## Definitions: the DPF engine (`dpf.hpp`)

`Seed256` is the eight-word 256-bit seed.  `prg_expand` and `prg_leaf`
are AES-CTR constructions; they are abstracted as parameters
`G : Seed256 → ExpandOut` and `L : Seed256 → Nat`, which the
specification's quantification over "all PRG outputs" makes exact.
Control bits are `Nat` values (the C++ `uint8_t`); the PRG's `t`
outputs are masked to one bit by the source (`w & 1`), which theorems
carry as the hypothesis `tL ≤ 1 ∧ tR ≤ 1`. -/

/-- `Seed256`: eight 32-bit words. -/
def Seed256 : Type := Fin 8 → Nat

/-- `seed_xor`: wordwise XOR. -/
def seed_xor (a b : Seed256) : Seed256 := fun i => a i ^^^ b i

/-- Output of one `prg_expand` call: `(sL, tL, sR, tR)`. -/
structure ExpandOut where
  sL : Seed256
  tL : Nat
  sR : Seed256
  tR : Nat

/-- One level's correction word triple `(cw_seed[ℓ], cw_tL[ℓ], cw_tR[ℓ])`. -/
structure CW where
  seed : Seed256
  tL : Nat
  tR : Nat

/-- `is_power_of_two(x) = x && ((x & (x-1)) == 0)`. -/
def is_power_of_two (x : Nat) : Bool := (x != 0) && (x &&& (x - 1) == 0)

/-- Fuel-driven form of the `ilog2_size` loop
(`int d = 0; while ((1 << d) < n) ++d;`). -/
def ilog2_fuel : Nat → Nat → Nat
  | 0, _ => 0
  | fuel + 1, n => if n ≤ 1 then 0 else ilog2_fuel fuel ((n + 1) / 2) + 1

/-- `ilog2_size`: the least `d` with `2^d ≥ n` (`n` itself is enough fuel). -/
def ilog2_size (n : Nat) : Nat := ilog2_fuel n n

/-- `get_bit(index, depth, level) = (index >> (depth - 1 - level)) & 1`. -/
def get_bit (index depth level : Nat) : Nat := (index >>> (depth - 1 - level)) &&& 1

/-- The sequence of branching bits an index takes through the tree,
MSB first (level `0` up to `depth - 1`). -/
def pathBits (depth index : Nat) : List Nat :=
  (List.range depth).map (fun level => get_bit index depth level)

/-- One level of `dpf::eval`: pick the child along `bit`, compute the
next control bit, and apply the correction word when `t == 0`. -/
def evalStep (G : Seed256 → ExpandOut) (s : Seed256) (t : Nat) (cw : CW) (bit : Nat) :
    Seed256 × Nat :=
  let e := G s
  let child := if bit ≠ 0 then e.sR else e.sL
  let tau := if bit ≠ 0 then e.tR else e.tL
  let cwt := if bit ≠ 0 then cw.tR else cw.tL
  let next_t := tau ^^^ (t &&& cwt)
  let child2 := if t = 0 then seed_xor child cw.seed else child
  (child2, next_t)

/-- One level of the generation loop in `dpf::generate`: expand both
parties, build the correction word from the `lose` branch, and advance
both parties along the `keep` branch. -/
def genStep (G : Seed256 → ExpandOut) (st0 st1 : Seed256 × Nat) (bit : Nat) :
    CW × (Seed256 × Nat) × (Seed256 × Nat) :=
  let e0 := G st0.1
  let e1 := G st1.1
  let keep := bit
  let lose := keep ^^^ 1
  let cwtL := e0.tL ^^^ e1.tL ^^^ bit ^^^ 1
  let cwtR := e0.tR ^^^ e1.tR ^^^ bit
  let corr := if lose = 0 then seed_xor e0.sL e1.sL else seed_xor e0.sR e1.sR
  let child0 := if keep = 0 then e0.sL else e0.sR
  let tchild0 := if keep = 0 then e0.tL else e0.tR
  let child0w := if st0.2 = 0 then seed_xor child0 corr else child0
  let tau0 := tchild0 ^^^ (st0.2 &&& (if keep = 0 then cwtL else cwtR))
  let child1 := if keep = 0 then e1.sL else e1.sR
  let tchild1 := if keep = 0 then e1.tL else e1.tR
  let child1w := if st1.2 = 0 then seed_xor child1 corr else child1
  let tau1 := tchild1 ^^^ (st1.2 &&& (if keep = 0 then cwtL else cwtR))
  (⟨corr, cwtL, cwtR⟩, (child0w, tau0), (child1w, tau1))

/-- The generation loop over the location's path bits, collecting the
correction words and the two parties' final states. -/
def genCore (G : Seed256 → ExpandOut) :
    List Nat → Seed256 × Nat → Seed256 × Nat → List CW × (Seed256 × Nat) × (Seed256 × Nat)
  | [], st0, st1 => ([], st0, st1)
  | bit :: bits, st0, st1 =>
      let stp := genStep G st0 st1 bit
      let rest := genCore G bits stp.2.1 stp.2.2
      (stp.1 :: rest.1, rest.2)

/-- The evaluation loop over `(bit, correction-word)` pairs. -/
def evalCore (G : Seed256 → ExpandOut) : List (Nat × CW) → Seed256 × Nat → Seed256 × Nat
  | [], st => st
  | (bit, cw) :: rest, st => evalCore G rest (evalStep G st.1 st.2 cw bit)

/-- A DPF key (`struct DPFKey`): root seed and control bit, the shared
per-level correction words as three parallel vectors, the output
correction, the domain size, and the tree depth. -/
structure DPFKey where
  rootSeed : Seed256
  rootT : Nat
  cw_seed : List Seed256
  cw_tL : List Nat
  cw_tR : List Nat
  cw_out : Nat
  size : Nat
  depth : Nat

/-- A generated key pair (`struct DPFKeys`). -/
structure DPFKeys where
  k0 : DPFKey
  k1 : DPFKey

/-- The body of `dpf::generate` after its two argument checks, with the
two root seeds drawn from the rng made explicit.  `root_t0` is the low
bit of the first word of `s0`; `root_t1` its complement. -/
def genPair (G : Seed256 → ExpandOut) (L : Seed256 → Nat)
    (size location value : Nat) (s0 s1 : Seed256) : DPFKeys :=
  let depth := ilog2_size size
  let t0 := s0 0 &&& 1
  let t1 := t0 ^^^ 1
  let r := genCore G (pathBits depth location) (s0, t0) (s1, t1)
  let cw_out := value ^^^ L r.2.1.1 ^^^ L r.2.2.1
  ⟨⟨s0, t0, r.1.map CW.seed, r.1.map CW.tL, r.1.map CW.tR, cw_out, size, depth⟩,
   ⟨s1, t1, r.1.map CW.seed, r.1.map CW.tL, r.1.map CW.tR, cw_out, size, depth⟩⟩

/-- `dpf::generate`, including its two `invalid_argument` checks. -/
def generate (G : Seed256 → ExpandOut) (L : Seed256 → Nat)
    (size location value : Nat) (s0 s1 : Seed256) : Except String DPFKeys :=
  if is_power_of_two size = false then Except.error "DPF domain must be power of two"
  else if size ≤ location then Except.error "location out of range"
  else Except.ok (genPair G L size location value s0 s1)

/-- Rebuild the per-level correction words from a key's three parallel
vectors (how `eval` indexes `cw_seed[ℓ]`, `cw_tL[ℓ]`, `cw_tR[ℓ]`). -/
def zip3Cw : List Seed256 → List Nat → List Nat → List CW
  | s :: ss, a :: ta, b :: tb => ⟨s, a, b⟩ :: zip3Cw ss ta tb
  | _, _, _ => []

/-- The loop body of `dpf::eval` (no range check): walk the tree along
`index`'s bits, then apply `prg_leaf` and the output correction when
the final control bit is set. -/
def evalRun (G : Seed256 → ExpandOut) (L : Seed256 → Nat) (key : DPFKey) (index : Nat) : Nat :=
  let cws := zip3Cw key.cw_seed key.cw_tL key.cw_tR
  let st := evalCore G ((pathBits key.depth index).zip cws) (key.rootSeed, key.rootT)
  let y := L st.1
  if st.2 ≠ 0 then y ^^^ key.cw_out else y

/-- `dpf::eval`, including its `out_of_range` check. -/
def eval (G : Seed256 → ExpandOut) (L : Seed256 → Nat) (key : DPFKey) (index : Nat) :
    Except String Nat :=
  if key.size ≤ index then Except.error "eval: index out of range"
  else Except.ok (evalRun G L key index)

/-- `dpf::eval_full`: evaluate at each index of the domain (the range
check in `eval` never fires there). -/
def eval_full (G : Seed256 → ExpandOut) (L : Seed256 → Nat) (key : DPFKey) : List Nat :=
  (List.range key.size).map (evalRun G L key)

/-! ## Definitions: text serialisation of keys (`dpf.hpp`) -/

/-- `serialize_key_text` as the stream of decimal tokens it prints:
`size depth`, the eight root-seed words, `root_t`, `cw_out`, the eight
words of each of the `depth` correction seeds, then the `cw_tL` line
and the `cw_tR` line. -/
def serialize_key_text (key : DPFKey) : List Nat :=
  [key.size, key.depth] ++ (List.ofFn fun i : Fin 8 => key.rootSeed i)
    ++ [key.rootT, key.cw_out]
    ++ (key.cw_seed.map (fun s => List.ofFn fun i : Fin 8 => s i)).flatten
    ++ key.cw_tL ++ key.cw_tR

/-- Consume exactly `n` tokens. -/
def takeExact (n : Nat) (l : List Nat) : Option (List Nat × List Nat) :=
  if n ≤ l.length then some (l.take n, l.drop n) else none

/-- Rebuild a `Seed256` from eight parsed words. -/
def seedOfList (ws : List Nat) : Seed256 := fun i => ws.getD i 0

/-- Read `n` correction seeds of eight words each. -/
def readSeeds : Nat → List Nat → Option (List Seed256 × List Nat)
  | 0, l => some ([], l)
  | n + 1, l =>
      match takeExact 8 l with
      | none => none
      | some (ws, rest) =>
          match readSeeds n rest with
          | none => none
          | some (ss, rest2) => some (seedOfList ws :: ss, rest2)

/-- `deserialize_key_text` on the token stream.  `root_t` is read into a
`uint8_t` (`& 0xFF`); each `cw_tL` / `cw_tR` entry is masked with
`& 1` as in the source. -/
def deserialize_key_text (tokens : List Nat) : Option (DPFKey × List Nat) :=
  match tokens with
  | size :: depth :: rest =>
      match takeExact 8 rest with
      | none => none
      | some (seedws, rest1) =>
          match rest1 with
          | rootT32 :: cw_out :: rest2 =>
              match readSeeds depth rest2 with
              | none => none
              | some (cwseeds, rest3) =>
                  match takeExact depth rest3 with
                  | none => none
                  | some (tLs, rest4) =>
                      match takeExact depth rest4 with
                      | none => none
                      | some (tRs, rest5) =>
                          some (⟨seedOfList seedws, rootT32 &&& 0xFF, cwseeds,
                                 tLs.map (fun b => b &&& 1), tRs.map (fun b => b &&& 1),
                                 cw_out, size, depth⟩, rest5)
          | _ => none
  | _ => none

/-! ## Definitions: the query driver (`server.cpp`, `run`) -/

/-- One record of a query file (`struct QueryEntry`). -/
structure Query where
  user_id : Nat
  key : DPFKey

/-- `size_t user_idx = qr.user_id % config.num_users` (server.cpp:112). -/
def userIndex (q : Query) (num_users : Nat) : Nat := q.user_id % num_users

/-- Joint execution of the per-query pipeline by both parties
(server.cpp:110-150): each party reads its share of `U` at its own
query's `user_id % num_users`, expands its DPF key, converts the
boolean shares to additive shares, then runs the secure dot product
with `V`, the two scalar secure multiplications, and the per-slot
update loop.  `prep t` is the `t`-th preprocessing bundle P2 serves for
this query (`t = 0`: the `V·indicator` dot product of dimension
`num_items`; `t = 1`: `u·v_j`; `t = 2`: `u·δ`; `t = 3 + i`: the slot-`i`
update, all of dimension 1). -/
def jointQuery (G : Seed256 → ExpandOut) (L : Seed256 → Nat) (num_users num_items : Nat)
    (U0 U1 V0 V1 : List Nat) (q0 q1 : Query) (prep : Nat → Bundle) : List Nat × List Nat :=
  let ui0 := U0.getD (userIndex q0 num_users) 0
  let ui1 := U1.getD (userIndex q1 num_users) 0
  let r := convertPair (eval_full G L q0.key) (eval_full G L q1.key)
  let ind0 := r.1
  let ind1 := r.2
  let vj := jointDot V0 ind0 V1 ind1 (prep 0)
  let dotr := jointDot [ui0] [vj.1] [ui1] [vj.2] (prep 1)
  let delta0 := Field.sub 1 dotr.1
  let delta1 := Field.sub 0 dotr.2
  let m := jointDot [ui0] [delta0] [ui1] [delta1] (prep 2)
  ((List.range num_items).map fun i =>
      Field.add (V0.getD i 0)
        ((jointDot [ind0.getD i 0] [m.1] [ind1.getD i 0] [m.2] (prep (3 + i))).1),
   (List.range num_items).map fun i =>
      Field.add (V1.getD i 0)
        ((jointDot [ind0.getD i 0] [m.1] [ind1.getD i 0] [m.2] (prep (3 + i))).2))

/-- The query loop of `run`: before each query both parties check their
expanded indicator's length against `num_items` and `break` on a
mismatch, leaving `V` as updated by the earlier queries.  Each query
consumes `num_items + 3` bundles from P2's stream. -/
def runQueries (G : Seed256 → ExpandOut) (L : Seed256 → Nat) (num_users num_items : Nat)
    (U0 U1 : List Nat) (prep : Nat → Bundle) :
    List (Query × Query) → List Nat → List Nat → Nat → List Nat × List Nat
  | [], V0, V1, _ => (V0, V1)
  | (q0, q1) :: rest, V0, V1, base =>
      if (eval_full G L q0.key).length ≠ num_items ∨ (eval_full G L q1.key).length ≠ num_items
      then (V0, V1)
      else
        let r := jointQuery G L num_users num_items U0 U1 V0 V1 q0 q1 (fun t => prep (base + t))
        runQueries G L num_users num_items U0 U1 prep rest r.1 r.2 (base + (num_items + 3))

/-- `run` around the query loop (server.cpp:98-156): with no queries the
parties return before connecting and nothing is written (`none`);
otherwise the loop runs and — whether it finished all queries or left
via a per-query `break` — `save_vector_shares` persists the current
`V` shares unconditionally (`some`). -/
def runModel (G : Seed256 → ExpandOut) (L : Seed256 → Nat) (num_users num_items : Nat)
    (U0 U1 V0 V1 : List Nat) (qs : List (Query × Query)) (prep : Nat → Bundle) :
    Option (List Nat × List Nat) :=
  if qs.isEmpty then none
  else some (runQueries G L num_users num_items U0 U1 prep qs V0 V1 0)

/-! ## Definitions: concrete instances used in witnesses and counterexamples -/

/-- A concrete PRG expansion (the verified properties hold for every `G`). -/
def Gc : Seed256 → ExpandOut := fun s => ⟨s, 0, s, 0⟩

/-- A concrete leaf PRG with 64-bit outputs. -/
def Lc : Seed256 → Nat := fun s => s 0 % 2 ^ 64

/-- A concrete root seed. -/
def s0c : Seed256 := fun _ => 0

/-- Another concrete root seed. -/
def s1c : Seed256 := fun _ => 4

/-- A valid all-zero preprocessing bundle of dimension 1. -/
def prepZero : Bundle := ⟨[0], [0], 0, [0], [0], 0⟩

/-- The constant bundle stream serving `prepZero` forever. -/
def prepStream : Nat → Bundle := fun _ => prepZero

/-- A generated key pair over the one-element domain with value 1. -/
def goodKeys : DPFKeys := genPair Gc Lc 1 0 1 s0c s1c

/-- A key whose domain size 2 mismatches a `num_items = 1` run. -/
def badKey : DPFKey := ⟨s0c, 0, [], [], [], 0, 2, 1⟩

/-- A C++-representable key whose `cw_tL[0]` holds the byte value 2. -/
def K2 : DPFKey := ⟨s0c, 0, [s1c], [2], [0], 0, 2, 1⟩

/-! ## Lemmas: field arithmetic and casts into `F` -/

lemma MODULUS_pos : 0 < Field.MODULUS := by decide

lemma cast_add (a b : Nat) : ((Field.add a b : Nat) : F) = (a : F) + (b : F) := by
  unfold Field.add
  rw [ZMod.natCast_mod]
  push_cast
  ring

lemma cast_mul (a b : Nat) : ((Field.mul a b : Nat) : F) = (a : F) * (b : F) := by
  unfold Field.mul
  rw [ZMod.natCast_mod]
  push_cast
  ring

lemma cast_sub (a b : Nat) : ((Field.sub a b : Nat) : F) = (a : F) - (b : F) := by
  unfold Field.sub
  rw [ZMod.natCast_mod]
  have hle : b % Field.MODULUS ≤ a + Field.MODULUS :=
    le_trans (le_of_lt (Nat.mod_lt _ MODULUS_pos)) (Nat.le_add_left _ _)
  rw [Nat.cast_sub hle]
  push_cast
  rw [ZMod.natCast_self, ZMod.natCast_mod]
  ring

lemma and_mask_eq_mod (n : Nat) : n &&& (Field.MODULUS - 1) = n % Field.MODULUS := by
  have h : Field.MODULUS - 1 = 2 ^ 32 - 1 := rfl
  rw [h]
  have := Nat.and_pow_two_sub_one_eq_mod n 32
  simpa [Field.MODULUS] using this

lemma int_cast_mod_two_pow_64 (x : Int) :
    (((x % (2 ^ 64 : Int)) : Int) : F) = (x : F) := by
  have hdvd : ((Field.MODULUS : Nat) : Int) ∣ (2 ^ 64 : Int) := by
    refine ⟨(2 ^ 32 : Int), by norm_num [Field.MODULUS]⟩
  calc (((x % (2 ^ 64 : Int)) : Int) : F)
      = (((x % (2 ^ 64 : Int)) % ((Field.MODULUS : Nat) : Int) : Int) : F) := by
        rw [ZMod.intCast_mod]
    _ = (((x % ((Field.MODULUS : Nat) : Int)) : Int) : F) := by
        rw [Int.emod_emod_of_dvd _ hdvd]
    _ = (x : F) := by rw [ZMod.intCast_mod]

lemma cast_from_signed (x : Int) : ((Field.from_signed x : Nat) : F) = (x : F) := by
  unfold Field.from_signed
  rw [and_mask_eq_mod, ZMod.natCast_mod]
  have hnn : 0 ≤ x % (2 ^ 64 : Int) := Int.emod_nonneg x (by norm_num)
  have h1 : (((x % (2 ^ 64 : Int)).toNat : Nat) : Int) = x % (2 ^ 64 : Int) :=
    Int.toNat_of_nonneg hnn
  have h2 : (((x % (2 ^ 64 : Int)).toNat : Nat) : F) = ((x % (2 ^ 64 : Int) : Int) : F) := by
    conv_rhs => rw [← h1]
    rw [Int.cast_natCast]
  rw [h2, int_cast_mod_two_pow_64]

/-- Two naturals are equal mod `2^32` iff their images in `F` agree. -/
lemma mod_eq_iff_cast_eq (a b : Nat) :
    a % Field.MODULUS = b % Field.MODULUS ↔ (a : F) = (b : F) := by
  rw [ZMod.natCast_eq_natCast_iff']

lemma dotN_cons (x y : Nat) (xs ys : List Nat) :
    dotN (x :: xs) (y :: ys) = x * y + dotN xs ys := rfl

lemma cast_dotN (k : Nat) :
    ∀ (xs ys : List Nat), xs.length = k → ys.length = k →
      ((dotN xs ys : Nat) : F) =
        ∑ i ∈ Finset.range k, (xs.getD i 0 : F) * (ys.getD i 0 : F) := by
  induction k with
  | zero =>
      intro xs ys hx hy
      rw [List.length_eq_zero] at hx hy
      subst hx; subst hy
      simp [dotN]
  | succ k ih =>
      intro xs ys hx hy
      rcases xs with _ | ⟨x, xs⟩
      · simp at hx
      rcases ys with _ | ⟨y, ys⟩
      · simp at hy
      simp only [List.length_cons, Nat.succ.injEq] at hx hy
      rw [dotN_cons, Finset.sum_range_succ']
      push_cast
      rw [ih xs ys hx hy]
      simp [List.getD]
      ring

/-! ## Lemmas: secure dot product -/

lemma fold_add_cast (f : Nat → Nat) :
    ∀ (n : Nat) (init : Nat),
      (((List.range n).foldl (fun acc i => Field.add acc (f i)) init : Nat) : F) =
        (init : F) + ∑ i ∈ Finset.range n, (f i : F) := by
  intro n
  induction n with
  | zero => intro init; simp
  | succ n ih =>
      intro init
      rw [List.range_succ, List.foldl_append, Finset.sum_range_succ]
      simp only [List.foldl_cons, List.foldl_nil]
      rw [cast_add, ih]
      ring

lemma fold_sub_cast (f : Nat → Nat) :
    ∀ (n : Nat) (init : Nat),
      (((List.range n).foldl (fun acc i => Field.sub acc (f i)) init : Nat) : F) =
        (init : F) - ∑ i ∈ Finset.range n, (f i : F) := by
  intro n
  induction n with
  | zero => intro init; simp
  | succ n ih =>
      intro init
      rw [List.range_succ, List.foldl_append, Finset.sum_range_succ]
      simp only [List.foldl_cons, List.foldl_nil]
      rw [cast_sub, ih]
      ring

lemma getD_zipWith_add (v X : List Nat) (i : Nat)
    (hv : i < v.length) (hX : i < X.length) :
    (maskedVec v X).getD i 0 = Field.add (v.getD i 0) (X.getD i 0) := by
  have hlen : i < (maskedVec v X).length := by
    simp [maskedVec, List.length_zipWith]
    omega
  rw [List.getD_eq_getElem _ _ hlen, List.getD_eq_getElem _ _ hv, List.getD_eq_getElem _ _ hX]
  simp [maskedVec, List.getElem_zipWith]

lemma cast_dot_local (k : Nat) (a b Y peer_ma peer_mb : List Nat) (c : Nat)
    (ha : a.length = k) :
    ((dot_local a b Y peer_ma peer_mb c : Nat) : F) =
      (∑ i ∈ Finset.range k,
        (a.getD i 0 : F) * ((b.getD i 0 : F) + (peer_mb.getD i 0 : F)))
      - (∑ i ∈ Finset.range k, (Y.getD i 0 : F) * (peer_ma.getD i 0 : F))
      + (c : F) := by
  unfold dot_local
  rw [ha, cast_add, fold_sub_cast, fold_add_cast]
  push_cast [cast_mul, cast_add]
  ring

/-- Correctness of one joint secure dot product, at the level of the
ring `F = Z/2^32`: the two returned shares sum to the inner product of
the reconstructed vectors. -/
lemma jointDot_recon (k : Nat) (a0 b0 a1 b1 : List Nat) (p : Bundle)
    (ha0 : a0.length = k) (hb0 : b0.length = k)
    (ha1 : a1.length = k) (hb1 : b1.length = k)
    (hwf : bundleWF p k) :
    (((jointDot a0 b0 a1 b1 p).1 : Nat) : F) + (((jointDot a0 b0 a1 b1 p).2 : Nat) : F) =
      ∑ i ∈ Finset.range k,
        ((a0.getD i 0 : F) + (a1.getD i 0 : F)) *
        ((b0.getD i 0 : F) + (b1.getD i 0 : F)) := by
  obtain ⟨hX0, hY0, hX1, hY1, hval⟩ := hwf
  have hval' : ((p.c0 : F) + (p.c1 : F)) =
      (∑ i ∈ Finset.range k, (p.X0.getD i 0 : F) * (p.Y1.getD i 0 : F)) +
      (∑ i ∈ Finset.range k, (p.X1.getD i 0 : F) * (p.Y0.getD i 0 : F)) := by
    have := (mod_eq_iff_cast_eq _ _).mp hval
    push_cast at this
    rw [cast_dotN k p.X0 p.Y1 hX0 hY1, cast_dotN k p.X1 p.Y0 hX1 hY0] at this
    exact this
  have e0 : (((jointDot a0 b0 a1 b1 p).1 : Nat) : F) =
      (∑ i ∈ Finset.range k,
        (a0.getD i 0 : F) * ((b0.getD i 0 : F) + ((b1.getD i 0 : F) + (p.Y1.getD i 0 : F))))
      - (∑ i ∈ Finset.range k,
        (p.Y0.getD i 0 : F) * ((a1.getD i 0 : F) + (p.X1.getD i 0 : F)))
      + (p.c0 : F) := by
    show ((dot_local a0 b0 p.Y0 (maskedVec a1 p.X1) (maskedVec b1 p.Y1) p.c0 : Nat) : F) = _
    rw [cast_dot_local k _ _ _ _ _ _ ha0]
    congr 2
    · apply Finset.sum_congr rfl
      intro i hi
      have hik := Finset.mem_range.mp hi
      rw [getD_zipWith_add b1 p.Y1 i (by omega) (by omega), cast_add]
    · apply Finset.sum_congr rfl
      intro i hi
      have hik := Finset.mem_range.mp hi
      rw [getD_zipWith_add a1 p.X1 i (by omega) (by omega), cast_add]
  have e1 : (((jointDot a0 b0 a1 b1 p).2 : Nat) : F) =
      (∑ i ∈ Finset.range k,
        (a1.getD i 0 : F) * ((b1.getD i 0 : F) + ((b0.getD i 0 : F) + (p.Y0.getD i 0 : F))))
      - (∑ i ∈ Finset.range k,
        (p.Y1.getD i 0 : F) * ((a0.getD i 0 : F) + (p.X0.getD i 0 : F)))
      + (p.c1 : F) := by
    show ((dot_local a1 b1 p.Y1 (maskedVec a0 p.X0) (maskedVec b0 p.Y0) p.c1 : Nat) : F) = _
    rw [cast_dot_local k _ _ _ _ _ _ ha1]
    congr 2
    · apply Finset.sum_congr rfl
      intro i hi
      have hik := Finset.mem_range.mp hi
      rw [getD_zipWith_add b0 p.Y0 i (by omega) (by omega), cast_add]
    · apply Finset.sum_congr rfl
      intro i hi
      have hik := Finset.mem_range.mp hi
      rw [getD_zipWith_add a0 p.X0 i (by omega) (by omega), cast_add]
  rw [e0, e1]
  have hsplit :
      (∑ i ∈ Finset.range k,
        (a0.getD i 0 : F) * ((b0.getD i 0 : F) + ((b1.getD i 0 : F) + (p.Y1.getD i 0 : F))))
      - (∑ i ∈ Finset.range k,
        (p.Y0.getD i 0 : F) * ((a1.getD i 0 : F) + (p.X1.getD i 0 : F)))
      + (∑ i ∈ Finset.range k,
        (a1.getD i 0 : F) * ((b1.getD i 0 : F) + ((b0.getD i 0 : F) + (p.Y0.getD i 0 : F))))
      - (∑ i ∈ Finset.range k,
        (p.Y1.getD i 0 : F) * ((a0.getD i 0 : F) + (p.X0.getD i 0 : F)))
      = (∑ i ∈ Finset.range k,
          ((a0.getD i 0 : F) + (a1.getD i 0 : F)) * ((b0.getD i 0 : F) + (b1.getD i 0 : F)))
        - ((∑ i ∈ Finset.range k, (p.X0.getD i 0 : F) * (p.Y1.getD i 0 : F)) +
           (∑ i ∈ Finset.range k, (p.X1.getD i 0 : F) * (p.Y0.getD i 0 : F))) := by
    rw [← Finset.sum_sub_distrib, ← Finset.sum_add_distrib, ← Finset.sum_sub_distrib,
        ← Finset.sum_add_distrib, ← Finset.sum_sub_distrib]
    apply Finset.sum_congr rfl
    intro i _
    ring
  calc
    (∑ i ∈ Finset.range k,
        (a0.getD i 0 : F) * ((b0.getD i 0 : F) + ((b1.getD i 0 : F) + (p.Y1.getD i 0 : F))))
      - (∑ i ∈ Finset.range k,
        (p.Y0.getD i 0 : F) * ((a1.getD i 0 : F) + (p.X1.getD i 0 : F)))
      + (p.c0 : F)
      + ((∑ i ∈ Finset.range k,
        (a1.getD i 0 : F) * ((b1.getD i 0 : F) + ((b0.getD i 0 : F) + (p.Y0.getD i 0 : F))))
      - (∑ i ∈ Finset.range k,
        (p.Y1.getD i 0 : F) * ((a0.getD i 0 : F) + (p.X0.getD i 0 : F)))
      + (p.c1 : F))
      = ((∑ i ∈ Finset.range k,
          (a0.getD i 0 : F) * ((b0.getD i 0 : F) + ((b1.getD i 0 : F) + (p.Y1.getD i 0 : F))))
        - (∑ i ∈ Finset.range k,
          (p.Y0.getD i 0 : F) * ((a1.getD i 0 : F) + (p.X1.getD i 0 : F)))
        + (∑ i ∈ Finset.range k,
          (a1.getD i 0 : F) * ((b1.getD i 0 : F) + ((b0.getD i 0 : F) + (p.Y0.getD i 0 : F))))
        - (∑ i ∈ Finset.range k,
          (p.Y1.getD i 0 : F) * ((a0.getD i 0 : F) + (p.X0.getD i 0 : F))))
        + ((p.c0 : F) + (p.c1 : F)) := by ring
    _ = ∑ i ∈ Finset.range k,
          ((a0.getD i 0 : F) + (a1.getD i 0 : F)) * ((b0.getD i 0 : F) + (b1.getD i 0 : F)) := by
        rw [hsplit, hval']
        ring

/-! ## Lemmas: XOR → additive conversion -/

lemma wrap64_modeq (x : Int) : wrap64 x ≡ x [ZMOD (2 ^ 64 : Int)] := by
  have h : (x + 2 ^ 63) % 2 ^ 64 ≡ x + 2 ^ 63 [ZMOD (2 ^ 64 : Int)] :=
    Int.emod_emod_of_dvd _ dvd_rfl
  have h2 := h.sub_right (2 ^ 63 : Int)
  have h3 : x + 2 ^ 63 - 2 ^ 63 = x := by ring
  unfold wrap64
  rwa [h3] at h2

lemma wrap64_lb (x : Int) : -2 ^ 63 ≤ wrap64 x := by
  have := Int.emod_nonneg (x + 2 ^ 63) (show (2 ^ 64 : Int) ≠ 0 by norm_num)
  unfold wrap64
  omega

lemma wrap64_ub (x : Int) : wrap64 x < 2 ^ 63 := by
  have := Int.emod_lt_of_pos (x + 2 ^ 63) (show (0 : Int) < 2 ^ 64 by norm_num)
  unfold wrap64
  omega

lemma wrap64_fix {x y : Int} (h : x ≡ y [ZMOD (2 ^ 64 : Int)])
    (hlb : -2 ^ 63 ≤ y) (hub : y < 2 ^ 63) : wrap64 x = y := by
  have h1 : wrap64 x % 2 ^ 64 = y % 2 ^ 64 := ((wrap64_modeq x).trans h)
  have h2 := wrap64_lb x
  have h3 := wrap64_ub x
  omega

lemma cast_MOD : ((Field.MODULUS : Nat) : F) = 0 := ZMod.natCast_self _

lemma cast_two_pow_32 : ((2 : F) ^ 32) = 0 := by
  have h : (((2 : Nat) ^ 32 : Nat) : F) = 0 := cast_MOD
  push_cast at h
  exact h

lemma cast_wrap64 (x : Int) : ((wrap64 x : Int) : F) = (x : F) := by
  unfold wrap64
  rw [Int.cast_sub, int_cast_mod_two_pow_64]
  push_cast
  ring

lemma cast_toInt64 (x : Nat) : ((toInt64 x : Int) : F) = (x : F) := by
  unfold toInt64
  split_ifs with h
  · rw [Int.cast_natCast]
  · rw [Int.cast_sub, Int.cast_natCast]
    have h64 : ((2 ^ 64 : Int) : F) = 0 := by
      push_cast
      calc ((2 : F) ^ 64) = 2 ^ 32 * 2 ^ 32 := by ring
        _ = 0 := by rw [cast_two_pow_32]; ring
    rw [h64]
    ring

lemma sum_vector_modeq (l : List Int) :
    ∀ acc : Int, l.foldl (fun a x => wrap64 (a + x)) acc ≡ acc + l.sum [ZMOD (2 ^ 64 : Int)] := by
  induction l with
  | nil => intro acc; simp [Int.ModEq.refl]
  | cons x xs ih =>
      intro acc
      simp only [List.foldl_cons, List.sum_cons]
      have h1 := ih (wrap64 (acc + x))
      have h2 : wrap64 (acc + x) + xs.sum ≡ (acc + x) + xs.sum [ZMOD (2 ^ 64 : Int)] :=
        (wrap64_modeq (acc + x)).add_right _
      have := h1.trans h2
      simpa [add_assoc] using this

lemma sum_map_neg_wrap (l : List Nat) :
    (l.map (fun x => wrap64 (-(toInt64 x)))).sum ≡ -((l.map toInt64).sum) [ZMOD (2 ^ 64 : Int)] := by
  induction l with
  | nil => simp [Int.ModEq.refl]
  | cons x xs ih =>
      simp only [List.map_cons, List.sum_cons]
      have h1 : wrap64 (-(toInt64 x)) ≡ -(toInt64 x) [ZMOD (2 ^ 64 : Int)] := wrap64_modeq _
      have h2 := h1.add ih
      have h3 : -(toInt64 x) + -((xs.map toInt64).sum) = -(toInt64 x + (xs.map toInt64).sum) := by
        ring
      rwa [h3] at h2

lemma nat_xor_cancel (a b : Nat) : a ^^^ (a ^^^ b) = b := by
  rw [← Nat.xor_assoc, Nat.xor_self, Nat.zero_xor]

lemma nat_xor_eq_zero {a b : Nat} (h : a ^^^ b = 0) : a = b := by
  have h2 : a ^^^ (a ^^^ b) = a ^^^ 0 := by rw [h]
  rw [nat_xor_cancel, Nat.xor_zero] at h2
  exact h2.symm

lemma xor_one_halves (a b : Nat) (h : a ^^^ b = 1) :
    a / 2 = b / 2 ∧ a % 2 + b % 2 = 1 := by
  constructor
  · apply Nat.eq_of_testBit_eq
    intro i
    have hx := congrArg (fun n => Nat.testBit n (i + 1)) h
    simp only [Nat.testBit_xor] at hx
    have h1 : Nat.testBit 1 (i + 1) = false := by
      have : (1 : Nat) / 2 = 0 := by norm_num
      rw [Nat.testBit_succ, this, Nat.zero_testBit]
    rw [h1] at hx
    rw [← Nat.testBit_succ, ← Nat.testBit_succ]
    revert hx
    cases Nat.testBit a (i + 1) <;> cases Nat.testBit b (i + 1) <;> simp
  · have hx := congrArg (fun n => Nat.testBit n 0) h
    simp only [Nat.testBit_zero] at hx
    rcases Nat.mod_two_eq_zero_or_one a with h1 | h1 <;>
      rcases Nat.mod_two_eq_zero_or_one b with h2 | h2 <;>
      simp [h1, h2] at hx ⊢ <;> omega

lemma toInt64_diff (a b : Nat) (ha : a < 2 ^ 64) (hb : b < 2 ^ 64) (h : a ^^^ b = 1) :
    toInt64 a - toInt64 b = (a : Int) - (b : Int) ∧
      ((a : Int) - (b : Int) = 1 ∨ (a : Int) - (b : Int) = -1) := by
  obtain ⟨hq, hr⟩ := xor_one_halves a b h
  constructor
  · unfold toInt64
    have h63 : a < 2 ^ 63 ↔ b < 2 ^ 63 := by omega
    split_ifs with h1 h2 h2 <;> [skip; exact absurd (h63.mp h1) h2;
      exact absurd (h63.mpr h2) h1; skip] <;> push_cast <;> ring
  · omega

lemma sum_map_toInt64_diff :
    ∀ (d0 d1 : List Nat) (j : Nat), d0.length = d1.length → j < d0.length →
      (∀ i, i < d0.length → i ≠ j → d0.getD i 0 = d1.getD i 0) →
      (d0.map toInt64).sum - (d1.map toInt64).sum
        = toInt64 (d0.getD j 0) - toInt64 (d1.getD j 0) := by
  intro d0
  induction d0 with
  | nil =>
      intro d1 j _ hj _
      simp at hj
  | cons x xs ih =>
      intro d1 j hlen hj hoff
      rcases d1 with _ | ⟨y, ys⟩
      · simp at hlen
      have hlen' : xs.length = ys.length := by
        simp only [List.length_cons] at hlen
        omega
      have hj' : j < xs.length + 1 := by
        simp only [List.length_cons] at hj
        omega
      rcases j with _ | k
      · have htails : xs = ys := by
          apply List.ext_getElem hlen'
          intro n h1 h2
          have h3 := hoff (n + 1) (by simp only [List.length_cons]; omega) (by omega)
          rw [List.getD_cons_succ, List.getD_cons_succ] at h3
          rwa [List.getD_eq_getElem _ _ h1, List.getD_eq_getElem _ _ h2] at h3
        subst htails
        simp only [List.map_cons, List.sum_cons, List.getD_cons_zero]
        ring
      · have hhead : x = y := by
          have h3 := hoff 0 (by simp only [List.length_cons]; omega) (by omega)
          rw [List.getD_cons_zero, List.getD_cons_zero] at h3
          exact h3
        subst hhead
        have hshift : ∀ i, i < xs.length → i ≠ k → xs.getD i 0 = ys.getD i 0 := by
          intro i hi hik
          have h5 := hoff (i + 1) (by simp only [List.length_cons]; omega) (by omega)
          rwa [List.getD_cons_succ, List.getD_cons_succ] at h5
        have h4 := ih ys k hlen' (by omega) hshift
        simp only [List.map_cons, List.sum_cons, List.getD_cons_succ]
        omega

lemma getD_map_of_lt {α β : Type} (f : α → β) (l : List α) (i : Nat)
    (da : α) (db : β) (h : i < l.length) :
    (l.map f).getD i db = f (l.getD i da) := by
  rw [List.getD_eq_getElem _ _ (by simpa using h), List.getD_eq_getElem _ _ h,
    List.getElem_map]

lemma getD_mem_lt {l : List Nat} {i : Nat} (h : i < l.length) : l.getD i 0 ∈ l := by
  rw [List.getD_eq_getElem _ _ h]
  exact List.getElem_mem _

/-- The heart of the XOR→additive conversion: on a boolean-shared one-hot
vector the two parties' outputs reconstruct the indicator in `F`. -/
lemma convert_onehot (d0 d1 : List Nat) (j : Nat)
    (hlen : d0.length = d1.length) (hj : j < d0.length)
    (hb0 : ∀ x ∈ d0, x < 2 ^ 64) (hb1 : ∀ x ∈ d1, x < 2 ^ 64)
    (hone : ∀ i, i < d0.length → d0.getD i 0 ^^^ d1.getD i 0 = if i = j then 1 else 0) :
    ∀ i, i < d0.length →
      (((convertPair d0 d1).1.getD i 0 : Nat) : F) + (((convertPair d0 d1).2.getD i 0 : Nat) : F)
        = if i = j then 1 else 0 := by
  have hoff : ∀ i, i < d0.length → i ≠ j → d0.getD i 0 = d1.getD i 0 := by
    intro i hi hij
    exact nat_xor_eq_zero (by simpa [hij] using hone i hi)
  have hjx : d0.getD j 0 ^^^ d1.getD j 0 = 1 := by simpa using hone j hj
  have hd0j : d0.getD j 0 < 2 ^ 64 := hb0 _ (getD_mem_lt hj)
  have hd1j : d1.getD j 0 < 2 ^ 64 := hb1 _ (getD_mem_lt (by omega))
  obtain ⟨hdiff, hpm⟩ := toInt64_diff _ _ hd0j hd1j hjx
  set δ : Int := (d0.getD j 0 : Int) - (d1.getD j 0 : Int) with hδ
  have htemp0 : convert_temp d0 true = d0.map toInt64 := by simp [convert_temp]
  have hsum_mod :
      sum_vector (convert_temp d0 true) + sum_vector (convert_temp d1 false)
        ≡ δ [ZMOD (2 ^ 64 : Int)] := by
    have h0 : sum_vector (convert_temp d0 true) ≡ (d0.map toInt64).sum [ZMOD (2 ^ 64 : Int)] := by
      have := sum_vector_modeq (convert_temp d0 true) 0
      rw [htemp0] at this ⊢
      simpa using this
    have h1 : sum_vector (convert_temp d1 false) ≡ -((d1.map toInt64).sum) [ZMOD (2 ^ 64 : Int)] := by
      have ha := sum_vector_modeq (convert_temp d1 false) 0
      have hb : convert_temp d1 false = d1.map (fun x => wrap64 (-(toInt64 x))) := by
        simp [convert_temp]
      rw [hb] at ha ⊢
      have ha2 : sum_vector (d1.map (fun x => wrap64 (-(toInt64 x))))
          ≡ (d1.map (fun x => wrap64 (-(toInt64 x)))).sum [ZMOD (2 ^ 64 : Int)] := by
        simpa [sum_vector] using ha
      exact ha2.trans (sum_map_neg_wrap d1)
    have hsum := h0.add h1
    have hval : (d0.map toInt64).sum + -((d1.map toInt64).sum) = δ := by
      have h6 := sum_map_toInt64_diff d0 d1 j hlen hj hoff
      omega
    rwa [hval] at hsum
  have hδrange : -2 ^ 63 ≤ δ ∧ δ < 2 ^ 63 := by rcases hpm with h | h <;> omega
  have htot0 : wrap64 (sum_vector (convert_temp d0 true) + sum_vector (convert_temp d1 false)) = δ :=
    wrap64_fix hsum_mod hδrange.1 hδrange.2
  have htot1 : wrap64 (sum_vector (convert_temp d1 false) + sum_vector (convert_temp d0 true)) = δ := by
    rw [add_comm]
    exact htot0
  intro i hi
  have hi1 : i < d1.length := by omega
  have hlen0 : i < (convert_temp d0 true).length := by simp [convert_temp]; omega
  have hlen1 : i < (convert_temp d1 false).length := by simp [convert_temp]; omega
  have ht0i : (convert_temp d0 true).getD i 0 = toInt64 (d0.getD i 0) := by
    unfold convert_temp
    rw [getD_map_of_lt _ _ _ 0 _ (by omega)]
    simp
  have ht1i : (convert_temp d1 false).getD i 0 = wrap64 (-(toInt64 (d1.getD i 0))) := by
    unfold convert_temp
    rw [getD_map_of_lt _ _ _ 0 _ (by omega)]
    simp
  have hout : (((convertPair d0 d1).1.getD i 0 : Nat) : F) + (((convertPair d0 d1).2.getD i 0 : Nat) : F)
      = (if δ < 0 then -1 else 1) *
          (((toInt64 (d0.getD i 0) : Int) : F) - ((toInt64 (d1.getD i 0) : Int) : F)) := by
    show ((convert_xor_to_additive d0 true (sum_vector (convert_temp d1 false))).getD i 0 : F)
        + ((convert_xor_to_additive d1 false (sum_vector (convert_temp d0 true))).getD i 0 : F) = _
    simp only [convert_xor_to_additive, convert_out]
    rw [htot0, htot1]
    split_ifs with hneg
    · rw [getD_map_of_lt Field.from_signed _ _ 0 _ (by simpa using hlen0),
        getD_map_of_lt Field.from_signed _ _ 0 _ (by simpa using hlen1),
        getD_map_of_lt _ _ _ 0 _ hlen0, getD_map_of_lt _ _ _ 0 _ hlen1,
        ht0i, ht1i, cast_from_signed, cast_from_signed, cast_wrap64, cast_wrap64]
      push_cast [cast_wrap64]
      ring
    · rw [getD_map_of_lt Field.from_signed _ _ 0 _ hlen0,
        getD_map_of_lt Field.from_signed _ _ 0 _ hlen1,
        ht0i, ht1i, cast_from_signed, cast_from_signed, cast_wrap64]
      push_cast
      ring
  rw [hout]
  by_cases hij : i = j
  · subst hij
    have hcast : ((toInt64 (d0.getD i 0) : Int) : F) - ((toInt64 (d1.getD i 0) : Int) : F)
        = ((δ : Int) : F) := by
      rw [← hdiff]
      push_cast
      ring
    rw [if_pos rfl, hcast]
    rcases hpm with h1 | h1
    · rw [h1]
      norm_num
    · rw [h1]
      push_cast
      try ring_nf
      try norm_num
  · have heq : d0.getD i 0 = d1.getD i 0 := hoff i hi hij
    rw [if_neg hij, heq]
    ring

/-! ## Lemmas: the DPF engine -/

lemma seed_xor_cancel (a b : Seed256) : seed_xor a (seed_xor a b) = b := by
  funext i
  show a i ^^^ (a i ^^^ b i) = b i
  exact nat_xor_cancel _ _

lemma seed_xor_cancel2 (a b : Seed256) : seed_xor b (seed_xor a b) = a := by
  funext i
  show b i ^^^ (a i ^^^ b i) = a i
  rw [Nat.xor_comm (a i) (b i)]
  exact nat_xor_cancel _ _

/-- The per-party state update inside `generate`'s loop is exactly one
`eval` step with the correction word just built. -/
lemma genStep_agree (G : Seed256 → ExpandOut) (st0 st1 : Seed256 × Nat) (b : Nat)
    (hb : b ≤ 1) :
    (genStep G st0 st1 b).2.1 = evalStep G st0.1 st0.2 (genStep G st0 st1 b).1 b ∧
    (genStep G st0 st1 b).2.2 = evalStep G st1.1 st1.2 (genStep G st0 st1 b).1 b := by
  interval_cases b <;> simp [genStep, evalStep]

/-- Along the programmed path the two parties' control bits stay
complementary one-bit values. -/
lemma genStep_tau (G : Seed256 → ExpandOut)
    (hG : ∀ s, (G s).tL ≤ 1 ∧ (G s).tR ≤ 1)
    (st0 st1 : Seed256 × Nat) (b : Nat) (hb : b ≤ 1)
    (h0 : st0.2 ≤ 1) (h1 : st1.2 ≤ 1) (hne : st0.2 ≠ st1.2) :
    (genStep G st0 st1 b).2.1.2 ≤ 1 ∧ (genStep G st0 st1 b).2.2.2 ≤ 1 ∧
      (genStep G st0 st1 b).2.1.2 ≠ (genStep G st0 st1 b).2.2.2 := by
  rcases st0 with ⟨s0, t0⟩
  rcases st1 with ⟨s1, t1⟩
  simp only at h0 h1 hne
  obtain ⟨hl0, hr0⟩ := hG s0
  obtain ⟨hl1, hr1⟩ := hG s1
  rcases h0e : G s0 with ⟨s0L, t0L, s0R, t0R⟩
  rcases h1e : G s1 with ⟨s1L, t1L, s1R, t1R⟩
  rw [h0e] at hl0 hr0
  rw [h1e] at hl1 hr1
  simp only at hl0 hr0 hl1 hr1
  simp only [genStep, h0e, h1e]
  interval_cases b <;> interval_cases t0 <;> interval_cases t1 <;>
    interval_cases t0L <;> interval_cases t1L <;> interval_cases t0R <;>
    interval_cases t1R <;> revert hne <;> decide

/-- Stepping off the programmed path makes the two parties' states
equal: the correction word was built from the `lose` branch, and
exactly one party (the one with control bit `0`) applies it. -/
lemma genStep_diverge (G : Seed256 → ExpandOut)
    (hG : ∀ s, (G s).tL ≤ 1 ∧ (G s).tR ≤ 1)
    (st0 st1 : Seed256 × Nat) (b c : Nat) (hb : b ≤ 1) (hc : c ≤ 1) (hbc : c ≠ b)
    (h0 : st0.2 ≤ 1) (h1 : st1.2 ≤ 1) (hne : st0.2 ≠ st1.2) :
    evalStep G st0.1 st0.2 (genStep G st0 st1 b).1 c
      = evalStep G st1.1 st1.2 (genStep G st0 st1 b).1 c := by
  rcases st0 with ⟨s0, t0⟩
  rcases st1 with ⟨s1, t1⟩
  simp only at h0 h1 hne
  obtain ⟨hl0, hr0⟩ := hG s0
  obtain ⟨hl1, hr1⟩ := hG s1
  rcases h0e : G s0 with ⟨s0L, t0L, s0R, t0R⟩
  rcases h1e : G s1 with ⟨s1L, t1L, s1R, t1R⟩
  rw [h0e] at hl0 hr0
  rw [h1e] at hl1 hr1
  simp only at hl0 hr0 hl1 hr1
  simp only [genStep, evalStep, h0e, h1e]
  have ht : t0 = 0 ∧ t1 = 1 ∨ t0 = 1 ∧ t1 = 0 := by omega
  interval_cases b <;> interval_cases c <;> try exact absurd rfl hbc
  all_goals rcases ht with ⟨ht0, ht1⟩ | ⟨ht0, ht1⟩ <;> subst ht0 <;> subst ht1
  all_goals simp only [Prod.mk.injEq]
  all_goals norm_num
  all_goals constructor
  · exact seed_xor_cancel _ _
  · interval_cases t0R <;> interval_cases t1R <;> decide
  · exact (seed_xor_cancel2 _ _).symm
  · interval_cases t0R <;> interval_cases t1R <;> decide
  · exact seed_xor_cancel _ _
  · interval_cases t0L <;> interval_cases t1L <;> decide
  · exact (seed_xor_cancel2 _ _).symm
  · interval_cases t0L <;> interval_cases t1L <;> decide

lemma genCore_length (G : Seed256 → ExpandOut) :
    ∀ (bs : List Nat) (st0 st1 : Seed256 × Nat),
      (genCore G bs st0 st1).1.length = bs.length := by
  intro bs
  induction bs with
  | nil => intro st0 st1; rfl
  | cons b bs ih =>
      intro st0 st1
      simp only [genCore, List.length_cons]
      rw [ih]

lemma zip3Cw_map (cws : List CW) :
    zip3Cw (cws.map CW.seed) (cws.map CW.tL) (cws.map CW.tR) = cws := by
  induction cws with
  | nil => rfl
  | cons c cs ih => simp [zip3Cw, ih]

/-- The central invariant of the DPF tree walk.  Running `eval`'s loop
with the correction words produced by `generate`'s loop: on the
programmed path each party reproduces `generate`'s final state (and
the two control bits end complementary); off the path the two parties'
states collapse to equality at the first divergent level and stay
equal. -/
lemma genCore_correct (G : Seed256 → ExpandOut)
    (hG : ∀ s, (G s).tL ≤ 1 ∧ (G s).tR ≤ 1) :
    ∀ (bsLoc bsIdx : List Nat) (st0 st1 : Seed256 × Nat),
      bsLoc.length = bsIdx.length →
      (∀ x ∈ bsLoc, x ≤ 1) → (∀ x ∈ bsIdx, x ≤ 1) →
      st0.2 ≤ 1 → st1.2 ≤ 1 → st0.2 ≠ st1.2 →
      ((bsIdx = bsLoc →
          evalCore G (bsIdx.zip (genCore G bsLoc st0 st1).1) st0 = (genCore G bsLoc st0 st1).2.1 ∧
          evalCore G (bsIdx.zip (genCore G bsLoc st0 st1).1) st1 = (genCore G bsLoc st0 st1).2.2 ∧
          (genCore G bsLoc st0 st1).2.1.2 ≤ 1 ∧ (genCore G bsLoc st0 st1).2.2.2 ≤ 1 ∧
          (genCore G bsLoc st0 st1).2.1.2 ≠ (genCore G bsLoc st0 st1).2.2.2) ∧
       (bsIdx ≠ bsLoc →
          evalCore G (bsIdx.zip (genCore G bsLoc st0 st1).1) st0
            = evalCore G (bsIdx.zip (genCore G bsLoc st0 st1).1) st1)) := by
  intro bsLoc
  induction bsLoc with
  | nil =>
      intro bsIdx st0 st1 hlen _ _ h0 h1 hne
      have hIdx : bsIdx = [] := List.eq_nil_of_length_eq_zero (by simpa using hlen.symm)
      subst hIdx
      exact ⟨fun _ => ⟨rfl, rfl, h0, h1, hne⟩, fun h => absurd rfl h⟩
  | cons b bs ih =>
      intro bsIdx st0 st1 hlen hbsLoc hbsIdx h0 h1 hne
      rcases bsIdx with _ | ⟨c, cs⟩
      · simp at hlen
      have hb : b ≤ 1 := hbsLoc b (by simp)
      have hc : c ≤ 1 := hbsIdx c (by simp)
      have hbs : ∀ x ∈ bs, x ≤ 1 := fun x hx => hbsLoc x (by simp [hx])
      have hcs : ∀ x ∈ cs, x ≤ 1 := fun x hx => hbsIdx x (by simp [hx])
      have hlen' : bs.length = cs.length := by
        simp only [List.length_cons] at hlen
        omega
      obtain ⟨ht0, ht1, htne⟩ := genStep_tau G hG st0 st1 b hb h0 h1 hne
      by_cases hcb : c = b
      · subst hcb
        have hstep := genStep_agree G st0 st1 c hc
        have IH := ih cs (genStep G st0 st1 c).2.1 (genStep G st0 st1 c).2.2
          hlen' hbs hcs ht0 ht1 htne
        constructor
        · intro heq
          have hcs_eq : cs = bs := by
            simpa using heq
          subst hcs_eq
          simp only [genCore, List.zip_cons_cons, evalCore]
          rw [← hstep.1, ← hstep.2]
          exact (IH.1 rfl)
        · intro hne2
          have hcs_ne : cs ≠ bs := by
            intro h
            exact hne2 (by rw [h])
          simp only [genCore, List.zip_cons_cons, evalCore]
          rw [← hstep.1, ← hstep.2]
          exact IH.2 hcs_ne
      · have hdiv := genStep_diverge G hG st0 st1 b c hb hc hcb h0 h1 hne
        constructor
        · intro heq
          have : c = b := by
            have := congrArg (fun l => l.headI) heq
            simpa using this
          exact absurd this hcb
        · intro _
          simp only [genCore, List.zip_cons_cons, evalCore]
          rw [hdiv]

lemma get_bit_eq (x d l : Nat) : get_bit x d l = (x / 2 ^ (d - 1 - l)) % 2 := by
  simp [get_bit, Nat.shiftRight_eq_div_pow, Nat.and_one_is_mod]

lemma get_bit_le_one (x d l : Nat) : get_bit x d l ≤ 1 := by
  rw [get_bit_eq]
  omega

lemma pathBits_length (d x : Nat) : (pathBits d x).length = d := by
  simp [pathBits]

lemma pathBits_mem (d x : Nat) : ∀ b ∈ pathBits d x, b ≤ 1 := by
  intro b hb
  rcases List.mem_map.mp hb with ⟨l, _, rfl⟩
  exact get_bit_le_one _ _ _

lemma pathBits_succ (d x : Nat) :
    pathBits (d + 1) x = ((x / 2 ^ d) % 2) :: pathBits d x := by
  unfold pathBits
  rw [List.range_succ_eq_map]
  simp only [List.map_cons, List.map_map]
  congr 1
  · rw [get_bit_eq]
    have h : d + 1 - 1 - 0 = d := by omega
    rw [h]
  · apply List.map_congr_left
    intro l _
    simp only [Function.comp]
    rw [get_bit_eq, get_bit_eq]
    have h : d + 1 - 1 - (l + 1) = d - 1 - l := by omega
    rw [h]

lemma pathBits_mod (d x : Nat) : pathBits d (x % 2 ^ d) = pathBits d x := by
  unfold pathBits
  apply List.map_congr_left
  intro l hl
  have hld : l < d := List.mem_range.mp hl
  have hk : d - 1 - l < d := by omega
  rw [get_bit_eq, get_bit_eq, ← Nat.toNat_testBit, ← Nat.toNat_testBit]
  congr 1
  simp [Nat.testBit_mod_two_pow, hk]

lemma pathBits_inj (d : Nat) :
    ∀ x y, x < 2 ^ d → y < 2 ^ d → pathBits d x = pathBits d y → x = y := by
  induction d with
  | zero =>
      intro x y hx hy _
      omega
  | succ d ih =>
      intro x y hx hy h
      rw [pathBits_succ, pathBits_succ] at h
      have hh : x / 2 ^ d % 2 = y / 2 ^ d % 2 := by
        have := congrArg List.headI h
        simpa using this
      have ht : pathBits d x = pathBits d y := by
        have := congrArg List.tail h
        simpa using this
      have h2d : 0 < 2 ^ d := Nat.two_pow_pos d
      have hps : 2 ^ (d + 1) = 2 ^ d * 2 := by rw [pow_succ]
      have hxq : x / 2 ^ d < 2 := (Nat.div_lt_iff_lt_mul h2d).mpr (by omega)
      have hyq : y / 2 ^ d < 2 := (Nat.div_lt_iff_lt_mul h2d).mpr (by omega)
      have hq : x / 2 ^ d = y / 2 ^ d := by
        rwa [Nat.mod_eq_of_lt hxq, Nat.mod_eq_of_lt hyq] at hh
      have hmods : x % 2 ^ d = y % 2 ^ d := by
        apply ih
        · exact Nat.mod_lt _ h2d
        · exact Nat.mod_lt _ h2d
        · rw [pathBits_mod, pathBits_mod]
          exact ht
      calc x = 2 ^ d * (x / 2 ^ d) + x % 2 ^ d := (Nat.div_add_mod x (2 ^ d)).symm
        _ = 2 ^ d * (y / 2 ^ d) + y % 2 ^ d := by rw [hq, hmods]
        _ = y := Nat.div_add_mod y (2 ^ d)

lemma ilog2_fuel_pow : ∀ (d fuel : Nat), 2 ^ d ≤ fuel → ilog2_fuel fuel (2 ^ d) = d := by
  intro d
  induction d with
  | zero =>
      intro fuel hf
      rcases fuel with _ | f
      · simp at hf
      simp [ilog2_fuel]
  | succ d ih =>
      intro fuel hf
      have hps : 2 ^ (d + 1) = 2 ^ d * 2 := by rw [pow_succ]
      have h2d : 0 < 2 ^ d := Nat.two_pow_pos d
      rcases fuel with _ | f
      · omega
      have hgt : ¬ (2 ^ (d + 1) ≤ 1) := by omega
      simp only [ilog2_fuel, if_neg hgt]
      have harg : (2 ^ (d + 1) + 1) / 2 = 2 ^ d := by omega
      rw [harg, ih f (by omega)]

lemma ilog2_pow (d : Nat) : ilog2_size (2 ^ d) = d :=
  ilog2_fuel_pow d (2 ^ d) le_rfl

lemma two_pow_and_pred (d : Nat) : 2 ^ d &&& (2 ^ d - 1) = 0 := by
  apply Nat.eq_of_testBit_eq
  intro i
  simp only [Nat.testBit_and, Nat.testBit_two_pow, Nat.testBit_two_pow_sub_one,
    Nat.zero_testBit, Bool.and_eq_false_iff]
  by_cases h : d = i
  · right
    subst h
    simp
  · left
    simp [h]

lemma pow_two_is_power (d : Nat) : is_power_of_two (2 ^ d) = true := by
  unfold is_power_of_two
  rw [Bool.and_eq_true, bne_iff_ne, beq_iff_eq]
  exact ⟨(Nat.two_pow_pos d).ne', two_pow_and_pred d⟩

lemma is_power_of_two_spec (n : Nat) (h : is_power_of_two n = true) : ∃ d, n = 2 ^ d := by
  induction n using Nat.strong_induction_on with
  | _ n ih =>
      unfold is_power_of_two at h
      rw [Bool.and_eq_true, bne_iff_ne, beq_iff_eq] at h
      obtain ⟨hne, hand⟩ := h
      rcases Nat.lt_or_ge n 2 with h2 | h2
      · have : n = 1 := by omega
        exact ⟨0, by omega⟩
      rcases Nat.mod_two_eq_zero_or_one n with hpar | hpar
      · -- even: halve and recurse
        have hm1 : 1 ≤ n / 2 := by omega
        have hm : n / 2 &&& (n / 2 - 1) = 0 := by
          apply Nat.eq_of_testBit_eq
          intro i
          rw [Nat.zero_testBit, Nat.testBit_and]
          have e1 : Nat.testBit (n / 2) i = Nat.testBit n (i + 1) := (Nat.testBit_succ n i).symm
          have ediv : (n - 1) / 2 = n / 2 - 1 := by omega
          have e2 : Nat.testBit (n / 2 - 1) i = Nat.testBit (n - 1) (i + 1) := by
            rw [Nat.testBit_succ, ediv]
          rw [e1, e2]
          have h3 := congrArg (fun m => Nat.testBit m (i + 1)) hand
          simp only [Nat.testBit_and, Nat.zero_testBit] at h3
          exact h3
        have hpow : is_power_of_two (n / 2) = true := by
          unfold is_power_of_two
          rw [Bool.and_eq_true, bne_iff_ne, beq_iff_eq]
          exact ⟨Nat.one_le_iff_ne_zero.mp hm1, hm⟩
        obtain ⟨d, hd⟩ := ih (n / 2) (by omega) hpow
        exact ⟨d + 1, by rw [pow_succ]; omega⟩
      · -- odd and ≥ 3: n & (n-1) = n - 1 ≠ 0, contradiction
        exfalso
        have hand' : n &&& (n - 1) = n - 1 := by
          apply Nat.eq_of_testBit_eq
          intro i
          rw [Nat.testBit_and]
          rcases i with _ | i
          · have hzero : Nat.testBit (n - 1) 0 = false := by
              simp only [Nat.testBit_zero, decide_eq_false_iff_not]
              omega
            rw [hzero, Bool.and_false]
          · have hdiv : (n - 1) / 2 = n / 2 := by omega
            have e : Nat.testBit (n - 1) (i + 1) = Nat.testBit n (i + 1) := by
              rw [Nat.testBit_succ, Nat.testBit_succ, hdiv]
            rw [e, Bool.and_self]
        have h9 : n - 1 = 0 := hand'.symm.trans hand
        omega

lemma xor_shuffle1 (a b v : Nat) : a ^^^ (b ^^^ (v ^^^ a ^^^ b)) = v := by
  apply Nat.eq_of_testBit_eq
  intro i
  simp only [Nat.testBit_xor]
  cases hA : Nat.testBit a i <;> cases hB : Nat.testBit b i <;>
    cases hV : Nat.testBit v i <;> rfl

lemma xor_shuffle2 (a b v : Nat) : (a ^^^ (v ^^^ a ^^^ b)) ^^^ b = v := by
  apply Nat.eq_of_testBit_eq
  intro i
  simp only [Nat.testBit_xor]
  cases hA : Nat.testBit a i <;> cases hB : Nat.testBit b i <;>
    cases hV : Nat.testBit v i <;> rfl

lemma root_bits (t : Nat) (h : t ≤ 1) : t ^^^ 1 ≤ 1 ∧ t ≠ t ^^^ 1 := by
  interval_cases t <;> decide

/-- DPF correctness over the generated pair: for every index of the
domain, the two parties' evaluations XOR to the programmed point
function. -/
lemma genPair_eval (G : Seed256 → ExpandOut) (L : Seed256 → Nat)
    (hG : ∀ s, (G s).tL ≤ 1 ∧ (G s).tR ≤ 1)
    (d loc value : Nat) (s0 s1 : Seed256) (hloc : loc < 2 ^ d) :
    ∀ i, i < 2 ^ d →
      evalRun G L (genPair G L (2 ^ d) loc value s0 s1).k0 i ^^^
        evalRun G L (genPair G L (2 ^ d) loc value s0 s1).k1 i
        = if i = loc then value else 0 := by
  intro i hi
  have ht0 : s0 0 &&& 1 ≤ 1 := by rw [Nat.and_one_is_mod]; omega
  obtain ⟨ht1, htne⟩ := root_bits (s0 0 &&& 1) ht0
  have hdep : ilog2_size (2 ^ d) = d := ilog2_pow d
  have core := genCore_correct G hG (pathBits d loc) (pathBits d i)
    (s0, s0 0 &&& 1) (s1, (s0 0 &&& 1) ^^^ 1)
    (by rw [pathBits_length, pathBits_length]) (pathBits_mem d loc) (pathBits_mem d i)
    ht0 ht1 htne
  simp only [genPair, hdep, evalRun, zip3Cw_map]
  by_cases hil : i = loc
  · subst hil
    obtain ⟨he0, he1, hf0, hf1, hfne⟩ := core.1 rfl
    rw [he0, he1, if_pos rfl]
    rcases (show ((genCore G (pathBits d i) (s0, s0 0 &&& 1) (s1, (s0 0 &&& 1) ^^^ 1)).2.1.2 = 0 ∧
        (genCore G (pathBits d i) (s0, s0 0 &&& 1) (s1, (s0 0 &&& 1) ^^^ 1)).2.2.2 ≠ 0) ∨
        ((genCore G (pathBits d i) (s0, s0 0 &&& 1) (s1, (s0 0 &&& 1) ^^^ 1)).2.1.2 ≠ 0 ∧
        (genCore G (pathBits d i) (s0, s0 0 &&& 1) (s1, (s0 0 &&& 1) ^^^ 1)).2.2.2 = 0)
      from by omega) with ⟨hz0, hz1⟩ | ⟨hz0, hz1⟩
    · rw [if_neg (by simpa using hz0), if_pos hz1]
      exact xor_shuffle1 _ _ _
    · rw [if_pos hz0, if_neg (by simpa using hz1)]
      exact xor_shuffle2 _ _ _
  · have hbits : pathBits d i ≠ pathBits d loc := fun h => hil (pathBits_inj d i loc hi hloc h)
    have heq := core.2 hbits
    rw [heq, if_neg hil]
    exact Nat.xor_self _

/-! ## Lemmas: the per-query pipeline -/

lemma eval_full_length (G : Seed256 → ExpandOut) (L : Seed256 → Nat) (key : DPFKey) :
    (eval_full G L key).length = key.size := by
  simp [eval_full]

lemma getD_range_map (f : Nat → Nat) (n i : Nat) (h : i < n) :
    ((List.range n).map f).getD i 0 = f i := by
  rw [getD_map_of_lt f _ _ 0 0 (by simpa using h)]
  congr 1
  rw [List.getD_eq_getElem _ _ (by simpa using h)]
  simp

lemma eval_full_getD (G : Seed256 → ExpandOut) (L : Seed256 → Nat) (key : DPFKey)
    (i : Nat) (h : i < key.size) :
    (eval_full G L key).getD i 0 = evalRun G L key i := by
  unfold eval_full
  exact getD_range_map _ _ _ h

lemma evalRun_lt (G : Seed256 → ExpandOut) (L : Seed256 → Nat) (key : DPFKey) (i : Nat)
    (hL : ∀ s, L s < 2 ^ 64) (hcw : key.cw_out < 2 ^ 64) :
    evalRun G L key i < 2 ^ 64 := by
  simp only [evalRun]
  split_ifs
  · exact Nat.xor_lt_two_pow (hL _) hcw
  · exact hL _

lemma genPair_cw_out_lt (G : Seed256 → ExpandOut) (L : Seed256 → Nat)
    (size loc value : Nat) (s0 s1 : Seed256)
    (hL : ∀ s, L s < 2 ^ 64) (hv : value < 2 ^ 64) :
    (genPair G L size loc value s0 s1).k0.cw_out < 2 ^ 64 ∧
      (genPair G L size loc value s0 s1).k1.cw_out < 2 ^ 64 := by
  constructor <;>
    exact Nat.xor_lt_two_pow (Nat.xor_lt_two_pow hv (hL _)) (hL _)

lemma convert_length (xv : List Nat) (b : Bool) (sp : Int) :
    (convert_xor_to_additive xv b sp).length = xv.length := by
  simp only [convert_xor_to_additive, convert_out]
  split_ifs <;> simp [convert_temp]

lemma jointDot_recon_one (x0 y0 x1 y1 : Nat) (p : Bundle) (hwf : bundleWF p 1) :
    (((jointDot [x0] [y0] [x1] [y1] p).1 : Nat) : F) +
      (((jointDot [x0] [y0] [x1] [y1] p).2 : Nat) : F)
      = ((x0 : F) + (x1 : F)) * ((y0 : F) + (y1 : F)) := by
  have h := jointDot_recon 1 [x0] [y0] [x1] [y1] p rfl rfl rfl rfl hwf
  simpa [Finset.sum_range_one] using h

lemma sum_mul_onehot (n j : Nat) (hj : j < n) (f : Nat → F) :
    ∑ k ∈ Finset.range n, f k * (if k = j then 1 else 0) = f j := by
  have h1 : ∀ k ∈ Finset.range n, f k * (if k = j then 1 else 0)
      = if k = j then f k else 0 := by
    intro k _
    split_ifs <;> ring
  rw [Finset.sum_congr rfl h1, Finset.sum_ite_eq' (Finset.range n) j f,
    if_pos (Finset.mem_range.mpr hj)]

/-- The reconstruction law of one joint query, with each party indexing
`U` with its own query's user id: every slot of the updated `V`
reconstructs to the old value plus, at the DPF's programmed location
only, `u·(1 − u·v)` for `u` the mixed reconstructed user factor and `v`
the old reconstructed selected item factor. -/
lemma jointQuery_law (G : Seed256 → ExpandOut) (L : Seed256 → Nat)
    (hG : ∀ s, (G s).tL ≤ 1 ∧ (G s).tR ≤ 1) (hL : ∀ s, L s < 2 ^ 64)
    (m d j : Nat) (U0 U1 V0 V1 : List Nat) (q0 q1 : Query) (prep : Nat → Bundle)
    (s0 s1 : Seed256) (hj : j < 2 ^ d)
    (hk0 : q0.key = (genPair G L (2 ^ d) j 1 s0 s1).k0)
    (hk1 : q1.key = (genPair G L (2 ^ d) j 1 s0 s1).k1)
    (hV0 : V0.length = 2 ^ d) (hV1 : V1.length = 2 ^ d)
    (hp0 : bundleWF (prep 0) (2 ^ d)) (hp1 : ∀ t, 1 ≤ t → bundleWF (prep t) 1)
    (u v : F)
    (hu : u = ((U0.getD (userIndex q0 m) 0 : Nat) : F) + ((U1.getD (userIndex q1 m) 0 : Nat) : F))
    (hv : v = ((V0.getD j 0 : Nat) : F) + ((V1.getD j 0 : Nat) : F)) :
    ∀ k, k < 2 ^ d →
      (((jointQuery G L m (2 ^ d) U0 U1 V0 V1 q0 q1 prep).1.getD k 0 : Nat) : F) +
        (((jointQuery G L m (2 ^ d) U0 U1 V0 V1 q0 q1 prep).2.getD k 0 : Nat) : F)
        = (((V0.getD k 0 : Nat) : F) + ((V1.getD k 0 : Nat) : F)) +
          (if k = j then u * (1 - u * v) else 0) := by
  intro k hk
  -- the expanded indicators
  have hsz0 : q0.key.size = 2 ^ d := by rw [hk0]; rfl
  have hsz1 : q1.key.size = 2 ^ d := by rw [hk1]; rfl
  have hxl0 : (eval_full G L q0.key).length = 2 ^ d := by rw [eval_full_length, hsz0]
  have hxl1 : (eval_full G L q1.key).length = 2 ^ d := by rw [eval_full_length, hsz1]
  have hcw := genPair_cw_out_lt G L (2 ^ d) j 1 s0 s1 hL (by norm_num)
  have hb0 : ∀ x ∈ eval_full G L q0.key, x < 2 ^ 64 := by
    intro x hx
    rcases List.mem_map.mp hx with ⟨i, _, rfl⟩
    rw [hk0]
    exact evalRun_lt _ _ _ _ hL hcw.1
  have hb1 : ∀ x ∈ eval_full G L q1.key, x < 2 ^ 64 := by
    intro x hx
    rcases List.mem_map.mp hx with ⟨i, _, rfl⟩
    rw [hk1]
    exact evalRun_lt _ _ _ _ hL hcw.2
  have hone : ∀ i, i < (eval_full G L q0.key).length →
      (eval_full G L q0.key).getD i 0 ^^^ (eval_full G L q1.key).getD i 0
        = if i = j then 1 else 0 := by
    intro i hi
    rw [hxl0] at hi
    rw [eval_full_getD _ _ _ _ (by omega), eval_full_getD _ _ _ _ (by omega), hk0, hk1]
    exact genPair_eval G L hG d j 1 s0 s1 hj i hi
  have hconv := convert_onehot (eval_full G L q0.key) (eval_full G L q1.key) j
    (by omega) (by omega) hb0 hb1 hone
  -- shorthands for the pipeline values
  set xs0 := eval_full G L q0.key with hxs0
  set xs1 := eval_full G L q1.key with hxs1
  set ind0 := (convertPair xs0 xs1).1 with hind0
  set ind1 := (convertPair xs0 xs1).2 with hind1
  have hil0 : ind0.length = 2 ^ d := by
    rw [hind0]
    show (convert_xor_to_additive xs0 true _).length = 2 ^ d
    rw [convert_length, hxl0]
  have hil1 : ind1.length = 2 ^ d := by
    rw [hind1]
    show (convert_xor_to_additive xs1 false _).length = 2 ^ d
    rw [convert_length, hxl1]
  have hind : ∀ i, i < 2 ^ d →
      ((ind0.getD i 0 : Nat) : F) + ((ind1.getD i 0 : Nat) : F) = if i = j then 1 else 0 := by
    intro i hi
    exact hconv i (by omega)
  -- step 3: the selected item's factor
  set vj := jointDot V0 ind0 V1 ind1 (prep 0) with hvj
  have hvjr : ((vj.1 : Nat) : F) + ((vj.2 : Nat) : F) = v := by
    rw [hvj, jointDot_recon (2 ^ d) V0 ind0 V1 ind1 (prep 0) hV0 hil0 hV1 hil1 hp0]
    have hpt : ∀ i ∈ Finset.range (2 ^ d),
        ((V0.getD i 0 : F) + (V1.getD i 0 : F)) * ((ind0.getD i 0 : F) + (ind1.getD i 0 : F))
          = ((V0.getD i 0 : F) + (V1.getD i 0 : F)) * (if i = j then 1 else 0) := by
      intro i hi
      rw [hind i (Finset.mem_range.mp hi)]
    rw [Finset.sum_congr rfl hpt,
      sum_mul_onehot (2 ^ d) j hj (fun i => (V0.getD i 0 : F) + (V1.getD i 0 : F)), hv]
  -- steps 4-6: dot with the user factor, residual, update scalar
  set ui0 := U0.getD (userIndex q0 m) 0 with hui0
  set ui1 := U1.getD (userIndex q1 m) 0 with hui1
  set dotr := jointDot [ui0] [vj.1] [ui1] [vj.2] (prep 1) with hdotr
  have hdr : ((dotr.1 : Nat) : F) + ((dotr.2 : Nat) : F) = u * v := by
    rw [hdotr, jointDot_recon_one _ _ _ _ _ (hp1 1 le_rfl), hvjr, hu]
  set delta0 := Field.sub 1 dotr.1 with hdelta0
  set delta1 := Field.sub 0 dotr.2 with hdelta1
  have hdel : ((delta0 : Nat) : F) + ((delta1 : Nat) : F) = 1 - u * v := by
    rw [hdelta0, hdelta1, cast_sub, cast_sub, ← hdr]
    push_cast
    ring
  set ms := jointDot [ui0] [delta0] [ui1] [delta1] (prep 2) with hms
  have hmr : ((ms.1 : Nat) : F) + ((ms.2 : Nat) : F) = u * (1 - u * v) := by
    rw [hms, jointDot_recon_one _ _ _ _ _ (hp1 2 (by omega)), hdel, hu]
  -- step 7: the slot-k update
  set upd := jointDot [ind0.getD k 0] [ms.1] [ind1.getD k 0] [ms.2] (prep (3 + k)) with hupd
  have hur : ((upd.1 : Nat) : F) + ((upd.2 : Nat) : F)
      = (if k = j then 1 else 0) * (u * (1 - u * v)) := by
    rw [hupd, jointDot_recon_one _ _ _ _ _ (hp1 (3 + k) (by omega)), hmr, hind k hk]
  -- assemble
  have hq1 : (jointQuery G L m (2 ^ d) U0 U1 V0 V1 q0 q1 prep).1
      = (List.range (2 ^ d)).map fun i =>
          Field.add (V0.getD i 0)
            ((jointDot [ind0.getD i 0] [ms.1] [ind1.getD i 0] [ms.2] (prep (3 + i))).1) := rfl
  have hq2 : (jointQuery G L m (2 ^ d) U0 U1 V0 V1 q0 q1 prep).2
      = (List.range (2 ^ d)).map fun i =>
          Field.add (V1.getD i 0)
            ((jointDot [ind0.getD i 0] [ms.1] [ind1.getD i 0] [ms.2] (prep (3 + i))).2) := rfl
  rw [hq1, hq2, getD_range_map _ _ _ hk, getD_range_map _ _ _ hk, cast_add, cast_add]
  rw [← hupd]
  calc ((V0.getD k 0 : Nat) : F) + ((upd.1 : Nat) : F)
        + (((V1.getD k 0 : Nat) : F) + ((upd.2 : Nat) : F))
      = (((V0.getD k 0 : Nat) : F) + ((V1.getD k 0 : Nat) : F))
        + (((upd.1 : Nat) : F) + ((upd.2 : Nat) : F)) := by ring
    _ = (((V0.getD k 0 : Nat) : F) + ((V1.getD k 0 : Nat) : F))
        + (if k = j then u * (1 - u * v) else 0) := by
        rw [hur]
        split_ifs <;> ring

/-! ## Lemmas: the run loop -/

/-- A failing query stops the loop exactly where a run of the good
prefix alone would stop: everything after the failure is discarded,
everything before it is kept. -/
lemma runQueries_break (G : Seed256 → ExpandOut) (L : Seed256 → Nat)
    (m n : Nat) (U0 U1 : List Nat) (prep : Nat → Bundle) :
    ∀ (pre : List (Query × Query)) (bad : Query × Query) (rest : List (Query × Query))
      (V0 V1 : List Nat) (base : Nat),
      ((eval_full G L bad.1.key).length ≠ n ∨ (eval_full G L bad.2.key).length ≠ n) →
      runQueries G L m n U0 U1 prep (pre ++ bad :: rest) V0 V1 base
        = runQueries G L m n U0 U1 prep pre V0 V1 base := by
  intro pre
  induction pre with
  | nil =>
      intro bad rest V0 V1 base hfail
      rcases bad with ⟨b0, b1⟩
      simp only [List.nil_append, runQueries]
      rw [if_pos hfail]
  | cons q pre ih =>
      intro bad rest V0 V1 base hfail
      rcases q with ⟨q0, q1⟩
      simp only [List.cons_append, runQueries]
      split_ifs with h
      · rfl
      · exact ih bad rest _ _ _ hfail

/-! ## Lemmas: serialisation round trip -/

lemma seedOfList_ofFn (s : Seed256) :
    seedOfList (List.ofFn fun i : Fin 8 => s i) = s := by
  funext i
  unfold seedOfList
  rw [List.getD_eq_getElem _ _ (by simp)]
  rw [List.getElem_ofFn]

lemma takeExact_append (l rest : List Nat) :
    takeExact l.length (l ++ rest) = some (l, rest) := by
  unfold takeExact
  rw [if_pos (by simp)]
  rw [List.take_left, List.drop_left]

lemma takeExact_append_of (n : Nat) (l rest : List Nat) (h : l.length = n) :
    takeExact n (l ++ rest) = some (l, rest) := by
  subst h
  exact takeExact_append l rest

lemma readSeeds_roundtrip :
    ∀ (ss : List Seed256) (rest : List Nat),
      readSeeds ss.length ((ss.map (fun s => List.ofFn fun i : Fin 8 => s i)).flatten ++ rest)
        = some (ss, rest) := by
  intro ss
  induction ss with
  | nil => intro rest; simp [readSeeds]
  | cons s ss ih =>
      intro rest
      simp only [List.map_cons, List.flatten_cons, List.length_cons, List.append_assoc]
      show readSeeds (ss.length + 1) _ = _
      simp only [readSeeds]
      rw [takeExact_append_of 8 _ _ (by simp)]
      simp only [ih rest, seedOfList_ofFn]

lemma map_and_one_of_bits (l : List Nat) (h : ∀ b ∈ l, b ≤ 1) :
    l.map (fun b => b &&& 1) = l := by
  induction l with
  | nil => rfl
  | cons b bs ih =>
      have hb : b ≤ 1 := h b (by simp)
      have hbs : ∀ x ∈ bs, x ≤ 1 := fun x hx => h x (by simp [hx])
      simp only [List.map_cons, ih hbs]
      congr 1
      rw [Nat.and_one_is_mod]
      omega

/-- The serialisation round trip, for keys whose vectors have the
advertised `depth`-lengths, whose control bits are bits, and whose
`root_t` fits a `uint8_t` (all of which hold for keys built by
`generate`). -/
lemma serialize_roundtrip (key : DPFKey) (rest : List Nat)
    (hseed : key.cw_seed.length = key.depth)
    (htL : key.cw_tL.length = key.depth) (htR : key.cw_tR.length = key.depth)
    (hbL : ∀ b ∈ key.cw_tL, b ≤ 1) (hbR : ∀ b ∈ key.cw_tR, b ≤ 1)
    (hrt : key.rootT < 256) :
    deserialize_key_text (serialize_key_text key ++ rest) = some (key, rest) := by
  unfold serialize_key_text deserialize_key_text
  simp only [List.cons_append, List.nil_append, List.append_assoc]
  rw [takeExact_append_of 8 _ _ (by simp)]
  have hrs : readSeeds key.depth
      ((key.cw_seed.map (fun s => List.ofFn fun i : Fin 8 => s i)).flatten ++
        (key.cw_tL ++ (key.cw_tR ++ rest)))
      = some (key.cw_seed, key.cw_tL ++ (key.cw_tR ++ rest)) := by
    rw [← hseed]
    exact readSeeds_roundtrip key.cw_seed _
  have htake1 : takeExact key.depth (key.cw_tL ++ (key.cw_tR ++ rest))
      = some (key.cw_tL, key.cw_tR ++ rest) := takeExact_append_of _ _ _ htL
  have htake2 : takeExact key.depth (key.cw_tR ++ rest) = some (key.cw_tR, rest) :=
    takeExact_append_of _ _ _ htR
  have hmapL := map_and_one_of_bits _ hbL
  have hmapR := map_and_one_of_bits _ hbR
  have hmask : key.rootT &&& 0xFF = key.rootT := by
    have h255 : (0xFF : Nat) = 2 ^ 8 - 1 := by norm_num
    rw [h255, Nat.and_pow_two_sub_one_eq_mod]
    omega
  simp only [hrs, htake1, htake2, seedOfList_ofFn, hmapL, hmapR, hmask]

/-! ## Remaining helper lemmas -/

lemma getD_zipWith_plus (v w : List Nat) (i : Nat)
    (hv : i < v.length) (hw : i < w.length) :
    (List.zipWith (· + ·) v w).getD i 0 = v.getD i 0 + w.getD i 0 := by
  have hlen : i < (List.zipWith (· + ·) v w).length := by
    simp [List.length_zipWith]
    omega
  rw [List.getD_eq_getElem _ _ hlen, List.getD_eq_getElem _ _ hv, List.getD_eq_getElem _ _ hw]
  simp [List.getElem_zipWith]

lemma generate_ok_elim (G : Seed256 → ExpandOut) (L : Seed256 → Nat)
    (size loc value : Nat) (s0 s1 : Seed256) (keys : DPFKeys)
    (h : generate G L size loc value s0 s1 = Except.ok keys) :
    keys = genPair G L size loc value s0 s1 := by
  unfold generate at h
  by_cases h1 : is_power_of_two size = false
  · rw [if_pos h1] at h
    exact absurd h (by simp)
  · rw [if_neg h1] at h
    by_cases h2 : size ≤ loc
    · rw [if_pos h2] at h
      exact absurd h (by simp)
    · rw [if_neg h2] at h
      simpa using h.symm

/-! ## Claim theorems -/

/-- C1: for every power-of-two size, location below it, 64-bit value,
and every choice of root seeds and PRG outputs, the pair returned by
`dpf::generate` satisfies, at every index `i` of the domain,
`eval(k0,i) XOR eval(k1,i) = (i == location ? value : 0)`. -/
theorem c1_dpf_correct (G : Seed256 → ExpandOut) (L : Seed256 → Nat)
    (hG : ∀ s, (G s).tL ≤ 1 ∧ (G s).tR ≤ 1)
    (size location value : Nat) (s0 s1 : Seed256)
    (hpow : is_power_of_two size = true) (hloc : location < size) (_hval : value < 2 ^ 64) :
    ∀ keys, generate G L size location value s0 s1 = Except.ok keys →
      ∀ i, i < size →
        ∃ y0 y1, eval G L keys.k0 i = Except.ok y0 ∧ eval G L keys.k1 i = Except.ok y1 ∧
          y0 ^^^ y1 = if i = location then value else 0 := by
  intro keys hgen i hi
  have hkeys := generate_ok_elim G L size location value s0 s1 keys hgen
  subst hkeys
  obtain ⟨d, hd⟩ := is_power_of_two_spec size hpow
  subst hd
  have hsz0 : (genPair G L (2 ^ d) location value s0 s1).k0.size = 2 ^ d := rfl
  have hsz1 : (genPair G L (2 ^ d) location value s0 s1).k1.size = 2 ^ d := rfl
  refine ⟨evalRun G L (genPair G L (2 ^ d) location value s0 s1).k0 i,
    evalRun G L (genPair G L (2 ^ d) location value s0 s1).k1 i, ?_, ?_, ?_⟩
  · unfold eval
    rw [if_neg (by rw [hsz0]; omega)]
  · unfold eval
    rw [if_neg (by rw [hsz1]; omega)]
  · exact genPair_eval G L hG d location value s0 s1 hloc i hi

/-- C1 witness: a concrete instance of `c1_dpf_correct` on domain size
2, location 1, value 7. -/
theorem c1_dpf_correct_witness :
    ∃ y0 y1, eval Gc Lc (genPair Gc Lc 2 1 7 s0c s1c).k0 1 = Except.ok y0 ∧
      eval Gc Lc (genPair Gc Lc 2 1 7 s0c s1c).k1 1 = Except.ok y1 ∧
      y0 ^^^ y1 = if 1 = 1 then 7 else 0 :=
  c1_dpf_correct Gc Lc (fun _ => ⟨Nat.zero_le 1, Nat.zero_le 1⟩) 2 1 7 s0c s1c
    (by decide) (by decide) (by decide)
    (genPair Gc Lc 2 1 7 s0c s1c) rfl 1 (by decide)

/-- C9: `dpf::generate` fails exactly when the size is not a power of
two or the location is out of range (with the source's two
invalid-argument messages), and `dpf::eval` fails exactly when the
index reaches the key's size (with its out-of-range message). -/
theorem c9_error_conditions :
    (∀ (G : Seed256 → ExpandOut) (L : Seed256 → Nat) (size location value : Nat)
        (s0 s1 : Seed256),
      (generate G L size location value s0 s1).isOk
        = (is_power_of_two size && decide (location < size)) ∧
      (is_power_of_two size = false →
        generate G L size location value s0 s1 = Except.error "DPF domain must be power of two") ∧
      (is_power_of_two size = true → size ≤ location →
        generate G L size location value s0 s1 = Except.error "location out of range")) ∧
    (∀ (G : Seed256 → ExpandOut) (L : Seed256 → Nat) (key : DPFKey) (index : Nat),
      (eval G L key index).isOk = decide (index < key.size) ∧
      (key.size ≤ index →
        eval G L key index = Except.error "eval: index out of range")) := by
  constructor
  · intro G L size location value s0 s1
    refine ⟨?_, ?_, ?_⟩
    · unfold generate
      split_ifs with h1 h2
      · simp [Except.isOk, Except.toBool, h1]
      · have hpow : is_power_of_two size = true := by
          revert h1
          cases is_power_of_two size <;> simp
        simp [Except.isOk, Except.toBool, hpow, show ¬ location < size by omega]
      · have hpow : is_power_of_two size = true := by
          revert h1
          cases is_power_of_two size <;> simp
        simp [Except.isOk, Except.toBool, hpow, show location < size by omega]
    · intro h
      unfold generate
      rw [if_pos h]
    · intro h1 h2
      unfold generate
      rw [if_neg (by simp [h1]), if_pos h2]
  · intro G L key index
    constructor
    · unfold eval
      split_ifs with h
      · simp [Except.isOk, Except.toBool, show ¬ index < key.size by omega]
      · simp [Except.isOk, Except.toBool, show index < key.size by omega]
    · intro h
      unfold eval
      rw [if_pos h]

/-- C9 witness: size 3 is rejected as a non-power-of-two, and
evaluating the size-2 key at index 5 is out of range. -/
theorem c9_error_conditions_witness :
    (generate Gc Lc 3 0 5 s0c s1c).isOk = (is_power_of_two 3 && decide (0 < 3)) ∧
    (eval Gc Lc badKey 5).isOk = decide (5 < badKey.size) ∧
    eval Gc Lc badKey 5 = Except.error "eval: index out of range" :=
  ⟨(c9_error_conditions.1 Gc Lc 3 0 5 s0c s1c).1,
   (c9_error_conditions.2 Gc Lc badKey 5).1,
   (c9_error_conditions.2 Gc Lc badKey 5).2 (by decide)⟩

/-- C3: for every dimension `k ≥ 1`, all share vectors of length `k`,
and every preprocessing bundle satisfying the correction invariant, the
two values returned by `secure_dot_product` sum to
`⟨a0+a1, b0+b1⟩ mod 2^32`. -/
theorem c3_secure_dot_product (k : Nat) (_hk : 1 ≤ k) (a0 b0 a1 b1 : List Nat) (p : Bundle)
    (ha0 : a0.length = k) (hb0 : b0.length = k) (ha1 : a1.length = k) (hb1 : b1.length = k)
    (hX0 : p.X0.length = k) (hY0 : p.Y0.length = k) (hX1 : p.X1.length = k)
    (hY1 : p.Y1.length = k)
    (hc : (p.c0 + p.c1) % Field.MODULUS = (dotN p.X0 p.Y1 + dotN p.X1 p.Y0) % Field.MODULUS) :
    ((jointDot a0 b0 a1 b1 p).1 + (jointDot a0 b0 a1 b1 p).2) % Field.MODULUS
      = dotN (List.zipWith (· + ·) a0 a1) (List.zipWith (· + ·) b0 b1) % Field.MODULUS := by
  rw [mod_eq_iff_cast_eq]
  push_cast
  rw [jointDot_recon k a0 b0 a1 b1 p ha0 hb0 ha1 hb1 ⟨hX0, hY0, hX1, hY1, hc⟩]
  rw [cast_dotN k _ _ (by simp [List.length_zipWith]; omega) (by simp [List.length_zipWith]; omega)]
  apply Finset.sum_congr rfl
  intro i hi
  have hik := Finset.mem_range.mp hi
  rw [getD_zipWith_plus a0 a1 i (by omega) (by omega),
    getD_zipWith_plus b0 b1 i (by omega) (by omega)]
  push_cast
  ring

/-- C3 witness: the specification's concrete scenario
(`a = 7, b = 11` split as `3+4` and `5+6`, bundle
`X0=1, Y0=3, X1=2, Y1=4, α=9`); the two outputs sum to 77. -/
theorem c3_secure_dot_product_witness :
    ((jointDot [3] [5] [4] [6] ⟨[1], [3], 13, [2], [4], 4294967293⟩).1 +
      (jointDot [3] [5] [4] [6] ⟨[1], [3], 13, [2], [4], 4294967293⟩).2) % Field.MODULUS
      = dotN (List.zipWith (· + ·) [3] [4]) (List.zipWith (· + ·) [5] [6]) % Field.MODULUS :=
  c3_secure_dot_product 1 (by decide) [3] [5] [4] [6] ⟨[1], [3], 13, [2], [4], 4294967293⟩
    rfl rfl rfl rfl rfl rfl rfl rfl (by decide)

/-- C4: for equal-length 64-bit vectors whose pointwise XOR is a one-hot
0/1 indicator, the two parties' outputs of `convert_xor_to_additive`
(with the two local sums exchanged) satisfy
`s0[i] + s1[i] ≡ indicator[i] (mod 2^32)` at every index. -/
theorem c4_convert_xor_to_additive (d0 d1 : List Nat) (j : Nat)
    (hlen : d0.length = d1.length) (hj : j < d0.length)
    (hb0 : ∀ x ∈ d0, x < 2 ^ 64) (hb1 : ∀ x ∈ d1, x < 2 ^ 64)
    (hone : ∀ i, i < d0.length → d0.getD i 0 ^^^ d1.getD i 0 = if i = j then 1 else 0) :
    ∀ i, i < d0.length →
      ((convertPair d0 d1).1.getD i 0 + (convertPair d0 d1).2.getD i 0) % Field.MODULUS
        = (if i = j then 1 else 0) % Field.MODULUS := by
  intro i hi
  rw [mod_eq_iff_cast_eq]
  have h := convert_onehot d0 d1 j hlen hj hb0 hb1 hone i hi
  push_cast
  rw [h]

/-- C4 witness: `d0 = [3]`, `d1 = [2]` (XOR `[1]`, one-hot at 0): the
outputs reconstruct 1 at index 0. -/
theorem c4_convert_xor_to_additive_witness :
    ((convertPair [3] [2]).1.getD 0 0 + (convertPair [3] [2]).2.getD 0 0) % Field.MODULUS
      = (if 0 = 0 then 1 else 0) % Field.MODULUS :=
  c4_convert_xor_to_additive [3] [2] 0 rfl (by decide) (by decide) (by decide)
    (by decide) 0 (by decide)

lemma field_add_congr (a b c : Nat) (h : a % Field.MODULUS = b % Field.MODULUS) :
    Field.add a c = Field.add b c := by
  unfold Field.add
  rw [Nat.add_mod, h, ← Nat.add_mod]

lemma field_sub_congr (a b c : Nat) (h : a % Field.MODULUS = b % Field.MODULUS) :
    Field.sub a c = Field.sub b c := by
  have h2 : Field.sub a c % Field.MODULUS = Field.sub b c % Field.MODULUS := by
    rw [mod_eq_iff_cast_eq, cast_sub, cast_sub, (mod_eq_iff_cast_eq a b).mp h]
  unfold Field.sub at h2 ⊢
  rwa [Nat.mod_mod, Nat.mod_mod] at h2

/-- C7: for every bundle the dealer serves for dimension `d`, P0's
response is `(⟨X0,Y1⟩ + α, X0, Y0)`, P1's is `(⟨X1,Y0⟩ − α, X1, Y1)`
(all mod `2^32`), and the two corrections satisfy
`c0 + c1 ≡ ⟨X0,Y1⟩ + ⟨X1,Y0⟩ (mod 2^32)`. -/
theorem c7_dealer_invariant (b : RawBundle) (d : Nat)
    (hX0 : b.X0.length = d) (hX1 : b.X1.length = d)
    (hY0 : b.Y0.length = d) (hY1 : b.Y1.length = d) :
    p2_response b true = (Field.add (dotN b.X0 b.Y1) b.alpha, b.X0, b.Y0) ∧
    p2_response b false = (Field.sub (dotN b.X1 b.Y0) b.alpha, b.X1, b.Y1) ∧
    ((p2_response b true).1 + (p2_response b false).1) % Field.MODULUS
      = (dotN b.X0 b.Y1 + dotN b.X1 b.Y0) % Field.MODULUS := by
  have hfold0 : ((List.range b.X0.length).foldl
      (fun acc i => Field.add acc (Field.mul (b.X0.getD i 0) (b.Y1.getD i 0))) 0) % Field.MODULUS
      = dotN b.X0 b.Y1 % Field.MODULUS := by
    rw [mod_eq_iff_cast_eq, fold_add_cast, cast_dotN b.X0.length b.X0 b.Y1 rfl (by omega)]
    push_cast [cast_mul]
    simp
  have hfold1 : ((List.range b.X1.length).foldl
      (fun acc i => Field.add acc (Field.mul (b.X1.getD i 0) (b.Y0.getD i 0))) 0) % Field.MODULUS
      = dotN b.X1 b.Y0 % Field.MODULUS := by
    rw [mod_eq_iff_cast_eq, fold_add_cast, cast_dotN b.X1.length b.X1 b.Y0 rfl (by omega)]
    push_cast [cast_mul]
    simp
  have e0 : p2_response b true = (Field.add (dotN b.X0 b.Y1) b.alpha, b.X0, b.Y0) := by
    simp only [p2_response, if_pos]
    rw [field_add_congr _ _ _ hfold0]
  have e1 : p2_response b false = (Field.sub (dotN b.X1 b.Y0) b.alpha, b.X1, b.Y1) := by
    simp only [p2_response, if_neg (by simp : ¬ false = true)]
    rw [field_sub_congr _ _ _ hfold1]
  refine ⟨e0, e1, ?_⟩
  rw [e0, e1]
  rw [mod_eq_iff_cast_eq]
  push_cast [cast_add, cast_sub]
  ring

/-- C7 witness: a concrete dimension-1 bundle `X0=[1], X1=[2], Y0=[3],
Y1=[4], α=9`. -/
theorem c7_dealer_invariant_witness :
    p2_response ⟨[1], [2], [3], [4], 9⟩ true
        = (Field.add (dotN [1] [4]) 9, [1], [3]) ∧
    p2_response ⟨[1], [2], [3], [4], 9⟩ false
        = (Field.sub (dotN [2] [3]) 9, [2], [4]) ∧
    ((p2_response ⟨[1], [2], [3], [4], 9⟩ true).1 +
      (p2_response ⟨[1], [2], [3], [4], 9⟩ false).1) % Field.MODULUS
      = (dotN [1] [4] + dotN [2] [3]) % Field.MODULUS :=
  c7_dealer_invariant ⟨[1], [2], [3], [4], 9⟩ 1 rfl rfl rfl rfl

/-- C10: the query driver reads the user share at `user_id % num_users`,
which is always in bounds for `num_users ≥ 1`, and a query whose
`user_id` is out of range is processed exactly as if its user id were
`user_id % num_users`. -/
theorem c10_user_index (m : Nat) (hm : 1 ≤ m) (q0 : Query) :
    userIndex q0 m < m ∧
    ∀ (G : Seed256 → ExpandOut) (L : Seed256 → Nat) (n : Nat) (U0 U1 V0 V1 : List Nat)
      (q1 : Query) (prep : Nat → Bundle),
      jointQuery G L m n U0 U1 V0 V1 q0 q1 prep
        = jointQuery G L m n U0 U1 V0 V1 ⟨q0.user_id % m, q0.key⟩ ⟨q1.user_id % m, q1.key⟩ prep := by
  constructor
  · exact Nat.mod_lt _ (by omega)
  · intro G L n U0 U1 V0 V1 q1 prep
    simp only [jointQuery, userIndex, Nat.mod_mod]

/-- C10 witness: `num_users = 3`, `user_id = 5`, with one concrete
pipeline instantiation of the as-if property. -/
theorem c10_user_index_witness :
    userIndex ⟨5, badKey⟩ 3 < 3 ∧
    jointQuery Gc Lc 3 1 [1, 2, 3] [4, 5, 6] [0] [0] ⟨5, badKey⟩ ⟨7, badKey⟩ prepStream
      = jointQuery Gc Lc 3 1 [1, 2, 3] [4, 5, 6] [0] [0] ⟨5 % 3, badKey⟩
          ⟨7 % 3, badKey⟩ prepStream :=
  ⟨(c10_user_index 3 (by decide) ⟨5, badKey⟩).1,
   (c10_user_index 3 (by decide) ⟨5, badKey⟩).2 Gc Lc 1 [1, 2, 3] [4, 5, 6] [0] [0]
     ⟨7, badKey⟩ prepStream⟩

/-- C2: for a run with one query (user id `i`, selected item `j`, DPF
value 1) and valid dealer bundles, the reconstructed updated vector
satisfies `V[j] = V_before[j] + u_i·(1 − u_i·v_j_before)` in `Z/2^32`,
and every other slot reconstructs unchanged. -/
theorem c2_selected_slot_update (G : Seed256 → ExpandOut) (L : Seed256 → Nat)
    (hG : ∀ s, (G s).tL ≤ 1 ∧ (G s).tR ≤ 1) (hL : ∀ s, L s < 2 ^ 64)
    (m d i j : Nat) (U0 U1 V0 V1 : List Nat) (q0 q1 : Query) (prep : Nat → Bundle)
    (s0 s1 : Seed256) (keys : DPFKeys)
    (hi : i < m)
    (hgen : generate G L (2 ^ d) j 1 s0 s1 = Except.ok keys)
    (hk0 : q0.key = keys.k0) (hk1 : q1.key = keys.k1)
    (huid0 : q0.user_id = i) (huid1 : q1.user_id = i)
    (_hU0 : U0.length = m) (_hU1 : U1.length = m)
    (hV0 : V0.length = 2 ^ d) (hV1 : V1.length = 2 ^ d)
    (hj : j < 2 ^ d)
    (hp0 : bundleWF (prep 0) (2 ^ d)) (hp1 : ∀ t, 1 ≤ t → bundleWF (prep t) 1) :
    (((jointQuery G L m (2 ^ d) U0 U1 V0 V1 q0 q1 prep).1.getD j 0 : Nat) : F) +
      (((jointQuery G L m (2 ^ d) U0 U1 V0 V1 q0 q1 prep).2.getD j 0 : Nat) : F)
      = (((V0.getD j 0 : Nat) : F) + ((V1.getD j 0 : Nat) : F)) +
        (((U0.getD i 0 : Nat) : F) + ((U1.getD i 0 : Nat) : F)) *
          (1 - (((U0.getD i 0 : Nat) : F) + ((U1.getD i 0 : Nat) : F)) *
            (((V0.getD j 0 : Nat) : F) + ((V1.getD j 0 : Nat) : F))) ∧
    (∀ k, k < 2 ^ d → k ≠ j →
      (((jointQuery G L m (2 ^ d) U0 U1 V0 V1 q0 q1 prep).1.getD k 0 : Nat) : F) +
        (((jointQuery G L m (2 ^ d) U0 U1 V0 V1 q0 q1 prep).2.getD k 0 : Nat) : F)
        = ((V0.getD k 0 : Nat) : F) + ((V1.getD k 0 : Nat) : F)) := by
  have hkeys := generate_ok_elim G L (2 ^ d) j 1 s0 s1 keys hgen
  rw [hkeys] at hk0 hk1
  have hidx0 : userIndex q0 m = i := by
    unfold userIndex
    rw [huid0]
    exact Nat.mod_eq_of_lt hi
  have hidx1 : userIndex q1 m = i := by
    unfold userIndex
    rw [huid1]
    exact Nat.mod_eq_of_lt hi
  have law := jointQuery_law G L hG hL m d j U0 U1 V0 V1 q0 q1 prep s0 s1 hj
    hk0 hk1 hV0 hV1 hp0 hp1
    (((U0.getD i 0 : Nat) : F) + ((U1.getD i 0 : Nat) : F))
    (((V0.getD j 0 : Nat) : F) + ((V1.getD j 0 : Nat) : F))
    (by rw [hidx0, hidx1]) rfl
  constructor
  · have h := law j hj
    rw [if_pos rfl] at h
    exact h
  · intro k hk hkj
    have h := law k hk
    rw [if_neg hkj, add_zero] at h
    exact h

lemma prepZero_wf : bundleWF prepZero 1 := by
  unfold bundleWF validBundle prepZero
  refine ⟨rfl, rfl, rfl, rfl, ?_⟩
  decide

/-- C2 witness: one query on a one-item domain with `U = [1]` and
`V = [0]` reconstructed: `V[0]` becomes `0 + 1·(1 − 1·0) = 1`. -/
theorem c2_selected_slot_update_witness :
    (((jointQuery Gc Lc 1 (2 ^ 0) [1] [0] [0] [0] ⟨0, goodKeys.k0⟩ ⟨0, goodKeys.k1⟩
        prepStream).1.getD 0 0 : Nat) : F) +
      (((jointQuery Gc Lc 1 (2 ^ 0) [1] [0] [0] [0] ⟨0, goodKeys.k0⟩ ⟨0, goodKeys.k1⟩
        prepStream).2.getD 0 0 : Nat) : F)
      = ((([0].getD 0 0 : Nat) : F) + (([0].getD 0 0 : Nat) : F)) +
        ((([1].getD 0 0 : Nat) : F) + (([0].getD 0 0 : Nat) : F)) *
          (1 - ((([1].getD 0 0 : Nat) : F) + (([0].getD 0 0 : Nat) : F)) *
            ((([0].getD 0 0 : Nat) : F) + (([0].getD 0 0 : Nat) : F))) :=
  (c2_selected_slot_update Gc Lc (fun _ => ⟨Nat.zero_le 1, Nat.zero_le 1⟩)
    (fun s => Nat.mod_lt _ (by decide)) 1 0 0 0 [1] [0] [0] [0]
    ⟨0, goodKeys.k0⟩ ⟨0, goodKeys.k1⟩ prepStream s0c s1c goodKeys
    (by decide) rfl rfl rfl rfl rfl rfl rfl rfl rfl (by decide)
    prepZero_wf (fun _ _ => prepZero_wf)).1

/-- C5 counterexample: a two-query run whose second query fails the
indicator-length check.  Not every query completed, yet the run still
returns updated `V` shares for persistence (`some …`), and they differ
from the initial shares: the partial update of the first query is
written to disk. -/
theorem c5_counterexample :
    runModel Gc Lc 1 1 [1] [0] [0] [0]
        [(⟨0, goodKeys.k0⟩, ⟨0, goodKeys.k1⟩), (⟨0, badKey⟩, ⟨0, badKey⟩)] prepStream
      = some ([0], [1]) ∧
    (eval_full Gc Lc badKey).length ≠ 1 ∧
    some (([0], [1]) : List Nat × List Nat) ≠ some (([0], [0]) : List Nat × List Nat) := by
  decide

/-- C5 (amended): a per-query failure (indicator-length mismatch) only
breaks the query loop; the run then persists the V shares as updated by
every query before the failing one — partial updates are committed, not
discarded.  (Only the no-queries early return, or an exception thrown
before the loop ends the process without saving.) -/
theorem c5_partial_update_persisted (G : Seed256 → ExpandOut) (L : Seed256 → Nat)
    (m n : Nat) (U0 U1 V0 V1 : List Nat) (prep : Nat → Bundle)
    (pre : List (Query × Query)) (bad : Query × Query) (rest : List (Query × Query))
    (hfail : (eval_full G L bad.1.key).length ≠ n ∨ (eval_full G L bad.2.key).length ≠ n) :
    runModel G L m n U0 U1 V0 V1 (pre ++ bad :: rest) prep
      = some (runQueries G L m n U0 U1 prep pre V0 V1 0) := by
  unfold runModel
  rw [if_neg (by simp)]
  rw [runQueries_break G L m n U0 U1 prep pre bad rest V0 V1 0 hfail]

/-- C5 amended-claim witness: the concrete two-query run of the
counterexample persists exactly the state after its first query. -/
theorem c5_partial_update_persisted_witness :
    runModel Gc Lc 1 1 [1] [0] [0] [0]
        [(⟨0, goodKeys.k0⟩, ⟨0, goodKeys.k1⟩), (⟨0, badKey⟩, ⟨0, badKey⟩)] prepStream
      = some (runQueries Gc Lc 1 1 [1] [0] prepStream
          [(⟨0, goodKeys.k0⟩, ⟨0, goodKeys.k1⟩)] [0] [0] 0) :=
  c5_partial_update_persisted Gc Lc 1 1 [1] [0] [0] [0] prepStream
    [(⟨0, goodKeys.k0⟩, ⟨0, goodKeys.k1⟩)] (⟨0, badKey⟩, ⟨0, badKey⟩) [] (by decide)

/-- C6 counterexample: queries with user ids 0 (P0) and 1 (P1), with
`U` reconstructing to `[0, 1]` and `V` to `[0]`.  The pipeline updates
`V[0]`'s reconstruction to 1 (P1 used its own id, row 1), while running
it with P0's id on both sides — what the claim asserts happens — leaves
it at 0.  No sync exchange or warning exists in the per-query code. -/
theorem c6_counterexample :
    ((jointQuery Gc Lc 2 1 [0, 0] [0, 1] [0] [0] ⟨0, goodKeys.k0⟩ ⟨1, goodKeys.k1⟩
        prepStream).1.getD 0 0 +
      (jointQuery Gc Lc 2 1 [0, 0] [0, 1] [0] [0] ⟨0, goodKeys.k0⟩ ⟨1, goodKeys.k1⟩
        prepStream).2.getD 0 0) % Field.MODULUS = 1 ∧
    ((jointQuery Gc Lc 2 1 [0, 0] [0, 1] [0] [0] ⟨0, goodKeys.k0⟩ ⟨0, goodKeys.k1⟩
        prepStream).1.getD 0 0 +
      (jointQuery Gc Lc 2 1 [0, 0] [0, 1] [0] [0] ⟨0, goodKeys.k0⟩ ⟨0, goodKeys.k1⟩
        prepStream).2.getD 0 0) % Field.MODULUS = 0 ∧
    (1 : Nat) ≠ 0 := by
  decide

/-- C6 (amended): no user-id sync exchange exists; each party indexes
its share of `U` with its own query's `user_id % num_users`, so on a
mismatch the update silently uses the mixed reconstruction
`U0[id0 % m] + U1[id1 % m]` (and no warning is emitted anywhere). -/
theorem c6_own_user_ids (G : Seed256 → ExpandOut) (L : Seed256 → Nat)
    (hG : ∀ s, (G s).tL ≤ 1 ∧ (G s).tR ≤ 1) (hL : ∀ s, L s < 2 ^ 64)
    (m d j : Nat) (U0 U1 V0 V1 : List Nat) (q0 q1 : Query) (prep : Nat → Bundle)
    (s0 s1 : Seed256) (keys : DPFKeys)
    (hgen : generate G L (2 ^ d) j 1 s0 s1 = Except.ok keys)
    (hk0 : q0.key = keys.k0) (hk1 : q1.key = keys.k1)
    (hV0 : V0.length = 2 ^ d) (hV1 : V1.length = 2 ^ d)
    (hj : j < 2 ^ d)
    (hp0 : bundleWF (prep 0) (2 ^ d)) (hp1 : ∀ t, 1 ≤ t → bundleWF (prep t) 1) :
    (((jointQuery G L m (2 ^ d) U0 U1 V0 V1 q0 q1 prep).1.getD j 0 : Nat) : F) +
      (((jointQuery G L m (2 ^ d) U0 U1 V0 V1 q0 q1 prep).2.getD j 0 : Nat) : F)
      = (((V0.getD j 0 : Nat) : F) + ((V1.getD j 0 : Nat) : F)) +
        (((U0.getD (q0.user_id % m) 0 : Nat) : F) + ((U1.getD (q1.user_id % m) 0 : Nat) : F)) *
          (1 - (((U0.getD (q0.user_id % m) 0 : Nat) : F) +
              ((U1.getD (q1.user_id % m) 0 : Nat) : F)) *
            (((V0.getD j 0 : Nat) : F) + ((V1.getD j 0 : Nat) : F))) := by
  have hkeys := generate_ok_elim G L (2 ^ d) j 1 s0 s1 keys hgen
  rw [hkeys] at hk0 hk1
  have law := jointQuery_law G L hG hL m d j U0 U1 V0 V1 q0 q1 prep s0 s1 hj
    hk0 hk1 hV0 hV1 hp0 hp1
    (((U0.getD (q0.user_id % m) 0 : Nat) : F) + ((U1.getD (q1.user_id % m) 0 : Nat) : F))
    (((V0.getD j 0 : Nat) : F) + ((V1.getD j 0 : Nat) : F))
    rfl rfl
  have h := law j hj
  rw [if_pos rfl] at h
  exact h

/-- C6 amended-claim witness: the mismatched-id instance of the
counterexample, through the amended theorem. -/
theorem c6_own_user_ids_witness :
    (((jointQuery Gc Lc 2 (2 ^ 0) [0, 0] [0, 1] [0] [0] ⟨0, goodKeys.k0⟩ ⟨1, goodKeys.k1⟩
        prepStream).1.getD 0 0 : Nat) : F) +
      (((jointQuery Gc Lc 2 (2 ^ 0) [0, 0] [0, 1] [0] [0] ⟨0, goodKeys.k0⟩ ⟨1, goodKeys.k1⟩
        prepStream).2.getD 0 0 : Nat) : F)
      = ((([0, 0].getD 0 0 : Nat) : F) + (([0, 1].getD 0 0 : Nat) : F)) +
        ((([0, 0].getD (0 % 2) 0 : Nat) : F) + (([0, 1].getD (1 % 2) 0 : Nat) : F)) *
          (1 - ((([0, 0].getD (0 % 2) 0 : Nat) : F) + (([0, 1].getD (1 % 2) 0 : Nat) : F)) *
            ((([0, 0].getD 0 0 : Nat) : F) + (([0, 1].getD 0 0 : Nat) : F))) :=
  c6_own_user_ids Gc Lc (fun _ => ⟨Nat.zero_le 1, Nat.zero_le 1⟩)
    (fun s => Nat.mod_lt _ (by decide)) 2 0 0 [0, 0] [0, 1] [0] [0]
    ⟨0, goodKeys.k0⟩ ⟨1, goodKeys.k1⟩ prepStream s0c s1c goodKeys
    rfl rfl rfl rfl rfl (by decide) prepZero_wf (fun _ _ => prepZero_wf)

/-- C8 counterexample: the C++-representable key `K2` with byte value 2
in `cw_tL[0]` does not round trip bit-exactly: the parser's `& 1`
turns the 2 into 0. -/
theorem c8_counterexample :
    (deserialize_key_text (serialize_key_text K2)).map (fun p => p.1.cw_tL) = some [0] ∧
    K2.cw_tL = [2] ∧ ([0] : List Nat) ≠ [2] :=
  ⟨rfl, rfl, by decide⟩

/-- C8 (amended): `deserialize_key_text ∘ serialize_key_text` reproduces
a key bit-exactly whenever its correction-word vectors have length
`depth`, its per-level control bits are single bits, and its `root_t`
fits a byte — which holds for every key `dpf::generate` produces.  (The
parser masks each t-bit with `& 1` and `root_t` with `& 0xFF`, so other
byte values do not survive.) -/
theorem c8_serialize_roundtrip (key : DPFKey) (rest : List Nat)
    (hseed : key.cw_seed.length = key.depth)
    (htL : key.cw_tL.length = key.depth) (htR : key.cw_tR.length = key.depth)
    (hbL : ∀ b ∈ key.cw_tL, b ≤ 1) (hbR : ∀ b ∈ key.cw_tR, b ≤ 1)
    (hrt : key.rootT < 256) :
    deserialize_key_text (serialize_key_text key ++ rest) = some (key, rest) :=
  serialize_roundtrip key rest hseed htL htR hbL hbR hrt

/-- C8 amended-claim witness: a key generated over domain size 2 round
trips, with trailing tokens preserved. -/
theorem c8_serialize_roundtrip_witness :
    deserialize_key_text (serialize_key_text (genPair Gc Lc 2 1 7 s0c s1c).k0 ++ [9])
      = some ((genPair Gc Lc 2 1 7 s0c s1c).k0, [9]) :=
  c8_serialize_roundtrip (genPair Gc Lc 2 1 7 s0c s1c).k0 [9]
    (by decide) (by decide) (by decide) (by decide) (by decide) (by decide)

end A3
